import Mathlib

/-!
Verification of the raster drawing-canvas engine of the sketch-to-3d-mesh
application (component `DrawingCanvas`).

The engine owns an RGBA pixel buffer (an `ImageData`: width, height and a flat
byte array of length `4 * width * height`, four bytes per pixel in RGBA order),
an undo history of buffer snapshots, and a redo stack.  The definitions below
are a shallow embedding of the TypeScript source:

  * JavaScript typed-array reads out of bounds yield `undefined`; we model a
    read as `Option Nat` (`jsGet`), where `none` is `undefined`.  Comparisons
    `undefined === n` and `undefined <= n` are both false in JavaScript, which
    `Option.beq` and `jsLe` reproduce.  Writes out of bounds are silently
    discarded (`jsSet`).
  * Pointer coordinates are passed to `floodFill` after `Math.round`; we model
    seed coordinates as integers (on integers `Math.round` is the identity).
  * CSS sizes and the device pixel ratio are modelled as naturals; the claims
    under study only involve integral sizes.
  * React state (`history`, `redoHistory`) together with the canvas contents
    form the engine state (`EngineState`); each handler is a state transformer.
-/

/-- An RGBA raster, mirroring the DOM `ImageData`: a flat array of bytes,
four per pixel, rows top to bottom.  A snapshot records its own dimensions. -/
structure ImageData where
  width : Nat
  height : Nat
  data : Array Nat
deriving DecidableEq, Repr

/-- Well-formedness: the flat array has exactly `4 * width * height` bytes. -/
def ImageData.WF (im : ImageData) : Prop :=
  im.data.size = 4 * im.width * im.height

instance (im : ImageData) : Decidable im.WF := by
  unfold ImageData.WF
  infer_instance

/-- The blank buffer produced by `fillRect` with `#FFFFFF` over the whole
canvas: every byte 255 (opaque white). -/
def whiteImage (w h : Nat) : ImageData :=
  { width := w, height := h, data := Array.mkArray (4 * w * h) 255 }

/-- Placeholder image used as the (unreachable) default of guarded lookups. -/
def emptyImage : ImageData :=
  { width := 0, height := 0, data := #[] }

/-- The four channel values of the pixel at column `x`, row `y`. -/
def getPixel (im : ImageData) (x y : Nat) : Nat × Nat × Nat × Nat :=
  let base := (y * im.width + x) * 4
  (im.data.getD base 0, im.data.getD (base + 1) 0,
   im.data.getD (base + 2) 0, im.data.getD (base + 3) 0)

/-- JavaScript typed-array read: `data[i]` is `undefined` (here `none`) when
`i` is negative or at least the length. -/
def jsGet (d : Array Nat) (i : Int) : Option Nat :=
  if 0 ≤ i then d[i.toNat]? else none

/-- JavaScript typed-array write: out-of-range writes are discarded. -/
def jsSet (d : Array Nat) (i : Int) (v : Nat) : Array Nat :=
  if 0 ≤ i then d.setD i.toNat v else d

/-- JavaScript `x <= n` where `x` may be `undefined`: comparison with
`undefined` is false. -/
def jsLe (o : Option Nat) (n : Nat) : Bool :=
  match o with
  | some v => v ≤ n
  | none => false

/-- `const tolerance = 64` — how close to black a pixel must be to count as a
line. -/
def tolerance : Nat := 64

/-- The flat byte index of the first channel of the pixel at integer
coordinates `p`, as computed by the source: `(y * canvas.width + x) * 4`. -/
def flatPos (W : Int) (p : Int × Int) : Int :=
  (p.2 * W + p.1) * 4

/-- The source's `isLine` classifier: a pixel is a boundary when it already
equals the fill color (`isNewLine`) or all three color channels are at most
`tolerance`. -/
def isLine (data : Array Nat) (pos : Int) (newR newG newB : Nat) : Bool :=
  let r := jsGet data pos
  let g := jsGet data (pos + 1)
  let b := jsGet data (pos + 2)
  let isNewLine := r == some newR && g == some newG && b == some newB
  isNewLine || (jsLe r tolerance && jsLe g tolerance && jsLe b tolerance)

/-- The source's `colorPixel`: write the fill color into the four channel
slots starting at `pos`. -/
def colorPixel (data : Array Nat) (pos : Int) (newR newG newB newA : Nat) :
    Array Nat :=
  jsSet (jsSet (jsSet (jsSet data pos newR) (pos + 1) newG) (pos + 2) newB)
    (pos + 3) newA

/-- The bounds test `nx >= 0 && nx < canvas.width && ny >= 0 && ny < canvas.height`. -/
def inB (W H : Int) (p : Int × Int) : Prop :=
  0 ≤ p.1 ∧ p.1 < W ∧ 0 ≤ p.2 ∧ p.2 < H

instance (W H : Int) (p : Int × Int) : Decidable (inB W H p) := by
  unfold inB; infer_instance

/-- The 4-connected neighbours enumerated by the source:
`[[x + 1, y], [x - 1, y], [x, y + 1], [x, y - 1]]`. -/
def neighbors (p : Int × Int) : List (Int × Int) :=
  [(p.1 + 1, p.2), (p.1 - 1, p.2), (p.1, p.2 + 1), (p.1, p.2 - 1)]

/-- One iteration of the source's neighbour loop: if the neighbour is inside
the canvas and unvisited, mark it visited, and enqueue it unless `isLine`
holds for it.  The accumulator is the pair (queue, visited). -/
def examineNeighbor (W H : Int) (newR newG newB : Nat) (data : Array Nat)
    (acc : List (Int × Int) × List (Int × Int)) (n : Int × Int) :
    List (Int × Int) × List (Int × Int) :=
  if inB W H n ∧ n ∉ acc.2 then
    let visited1 := n :: acc.2
    if isLine data (flatPos W n) newR newG newB then (acc.1, visited1)
    else (acc.1 ++ [n], visited1)
  else acc

/-- The source's `while (queue.length > 0)` loop: dequeue a coordinate, paint
it, and examine its four neighbours.  The loop is given explicit fuel; the
termination theorem for claim C10 shows `width * height + 1` iterations always
suffice. -/
def bfsLoop (W H : Int) (newR newG newB newA : Nat) :
    Nat → List (Int × Int) → List (Int × Int) → Array Nat → Array Nat
  | 0, _, _, data => data
  | _ + 1, [], _, data => data
  | fuel + 1, p :: rest, visited, data =>
    let currentPos := flatPos W p
    let data1 := colorPixel data currentPos newR newG newB newA
    let acc := (neighbors p).foldl (examineNeighbor W H newR newG newB data1)
      (rest, visited)
    bfsLoop W H newR newG newB newA fuel acc.1 acc.2 data1

/-- The engine state: the canvas buffer plus the two React state lists.
`history` is ordered oldest first (`history[history.length - 1]` is the most
recent snapshot); `redoHistory` is ordered newest first (`redoHistory[0]` is
consumed by redo). -/
structure EngineState where
  canvas : ImageData
  history : List ImageData
  redoHistory : List ImageData
deriving DecidableEq, Repr

/-- `saveState`: append a copy of the current buffer to the history and clear
the redo stack. -/
def saveState (s : EngineState) : EngineState :=
  { canvas := s.canvas
    history := s.history ++ [s.canvas]
    redoHistory := [] }

/-- `context.putImageData(img, 0, 0)` onto canvas `c`: the result keeps `c`'s
dimensions; every pixel inside `img`'s bounds is replaced by `img`'s pixel
(all four channels), the rest keep `c`'s contents. -/
def putImageData (c img : ImageData) : ImageData :=
  { c with
    data := Array.ofFn (fun i : Fin (4 * c.width * c.height) =>
      let p := (i : Nat) / 4
      let ch := (i : Nat) % 4
      let x := p % c.width
      let y := p / c.width
      if x < img.width ∧ y < img.height then
        img.data.getD ((y * img.width + x) * 4 + ch) 0
      else c.data.getD i 0) }

/-- The source's `setupCanvas`, driven by the element's CSS size and the
device pixel ratio.  It acts only when the required physical pixel size
differs from the current buffer size; in that case it reallocates the buffer,
fills it white, and either repaints the most recent history snapshot (history
non-empty) or pushes the blank buffer as the initial history entry. -/
def setupCanvas (rectW rectH dpr : Nat) (s : EngineState) : EngineState :=
  if s.canvas.width ≠ rectW * dpr ∨ s.canvas.height ≠ rectH * dpr then
    let blank := whiteImage (rectW * dpr) (rectH * dpr)
    if s.history.length > 0 then
      { s with canvas := putImageData blank (s.history.getLast?.getD emptyImage) }
    else
      { canvas := blank, history := [blank], redoHistory := [] }
  else s

/-- `handleClear` simply re-runs `setupCanvas`. -/
def handleClear (rectW rectH dpr : Nat) (s : EngineState) : EngineState :=
  setupCanvas rectW rectH dpr s

/-- `handleUndo`: no-op when at most one entry remains; otherwise move the
most recent snapshot to the front of the redo stack and repaint the previous
one. -/
def handleUndo (s : EngineState) : EngineState :=
  if s.history.length ≤ 1 then s
  else
    let lastState := s.history.getLast?.getD emptyImage
    let newHistory := s.history.dropLast
    let prevState := newHistory.getLast?.getD emptyImage
    { canvas := putImageData s.canvas prevState
      history := newHistory
      redoHistory := lastState :: s.redoHistory }

/-- `handleRedo`: no-op when the redo stack is empty; otherwise repaint its
front entry and append it back to the history. -/
def handleRedo (s : EngineState) : EngineState :=
  match s.redoHistory with
  | [] => s
  | nextState :: rest =>
    { canvas := putImageData s.canvas nextState
      history := s.history ++ [nextState]
      redoHistory := rest }

/-- A committed drawing operation: the pointer interaction leaves the drawn
result `im` on the canvas, and pointer-up calls `saveState`. -/
def commitOp (s : EngineState) (im : ImageData) : EngineState :=
  saveState { s with canvas := im }

/-- The source's `floodFill` with the loop fuel made explicit (the TypeScript
loop is unbounded; `floodFill` below instantiates the fuel with the proven
bound).  `newR`, `newG`, `newB` are the parsed channels of the fill color. -/
def floodFillFuel (fuel : Nat) (startX startY : Int) (newR newG newB : Nat)
    (s : EngineState) : EngineState :=
  let c := s.canvas
  let data := c.data
  let W : Int := c.width
  let newA : Nat := 255
  let pixelPos := (startY * W + startX) * 4
  let startR := jsGet data pixelPos
  let startG := jsGet data (pixelPos + 1)
  let startB := jsGet data (pixelPos + 2)
  if startR == some newR && startG == some newG && startB == some newB then s
  else if isLine data pixelPos newR newG newB then s
  else
    let data1 := bfsLoop W (c.height : Int) newR newG newB newA fuel
      [(startX, startY)] [(startX, startY)] data
    let next : ImageData := { width := c.width, height := c.height, data := data1 }
    { canvas := next, history := s.history ++ [next], redoHistory := [] }

/-- `floodFill`, run with enough fuel for the loop to reach its natural
termination (claim C10). -/
def floodFill (startX startY : Int) (newR newG newB : Nat)
    (s : EngineState) : EngineState :=
  floodFillFuel (s.canvas.width * s.canvas.height + 1) startX startY
    newR newG newB s

/-- The spec's boundary classification as literally worded for claim C4:
every color channel strictly below the darkness threshold, or exactly the
fill color. -/
def boundarySpecBelow (r g b fr fg fb : Nat) : Prop :=
  (r < 64 ∧ g < 64 ∧ b < 64) ∨ (r = fr ∧ g = fg ∧ b = fb)

instance (r g b fr fg fb : Nat) : Decidable (boundarySpecBelow r g b fr fg fb) := by
  unfold boundarySpecBelow
  infer_instance

/-- The boundary classification actually implemented: every color channel at
most the darkness threshold, or exactly the fill color. -/
def boundarySpecAtMost (r g b fr fg fb : Nat) : Prop :=
  (r ≤ 64 ∧ g ≤ 64 ∧ b ≤ 64) ∨ (r = fr ∧ g = fg ∧ b = fb)

instance (r g b fr fg fb : Nat) :
    Decidable (boundarySpecAtMost r g b fr fg fb) := by
  unfold boundarySpecAtMost
  infer_instance

/-- `isLine` at the flat index of coordinate `p`. -/
def lineAt (W : Int) (fr fg fb : Nat) (d : Array Nat) (p : Int × Int) : Bool :=
  isLine d (flatPos W p) fr fg fb

/-- The byte at channel offset `ch` of the pixel at coordinate `p`. -/
def chanAt (W : Int) (d : Array Nat) (p : Int × Int) (ch : Int) : Option Nat :=
  jsGet d (flatPos W p + ch)

/-- 4-connected reachability from `s` through coordinates satisfying `ok`. -/
inductive Reach (ok : Int × Int → Prop) (s : Int × Int) : Int × Int → Prop where
  | refl : ok s → Reach ok s s
  | step {q r : Int × Int} : Reach ok s q → r ∈ neighbors q → ok r →
      Reach ok s r

/-- A coordinate the flood fill may paint: inside the canvas and not a
boundary pixel of the original buffer. -/
def okPix (W H : Int) (fr fg fb : Nat) (d : Array Nat) (p : Int × Int) :
    Prop :=
  inB W H p ∧ lineAt W fr fg fb d p = false

/-- `d` is `d0` with exactly the pixels listed in `P` repainted to the fill
color at full opacity. -/
def Paint (W H : Int) (fr fg fb : Nat) (d0 d : Array Nat)
    (P : List (Int × Int)) : Prop :=
  d.size = d0.size ∧ ∀ p : Int × Int, inB W H p →
    ((p ∈ P → chanAt W d p 0 = some fr ∧ chanAt W d p 1 = some fg ∧
        chanAt W d p 2 = some fb ∧ chanAt W d p 3 = some 255) ∧
     (p ∉ P → ∀ ch : Int, 0 ≤ ch → ch < 4 →
        chanAt W d p ch = chanAt W d0 p ch))

/-- The flood fill postcondition: relative to the original buffer `d0` and
seed `s0`, `d` repaints exactly the coordinates 4-reachable from the seed
through non-boundary pixels, and preserves everything else. -/
def FillResult (W H : Int) (fr fg fb : Nat) (d0 : Array Nat)
    (s0 : Int × Int) (d : Array Nat) : Prop :=
  d.size = d0.size ∧ ∀ p : Int × Int, inB W H p →
    ((Reach (okPix W H fr fg fb d0) s0 p →
        chanAt W d p 0 = some fr ∧ chanAt W d p 1 = some fg ∧
        chanAt W d p 2 = some fb ∧ chanAt W d p 3 = some 255) ∧
     (¬ Reach (okPix W H fr fg fb d0) s0 p →
        ∀ ch : Int, 0 ≤ ch → ch < 4 →
          chanAt W d p ch = chanAt W d0 p ch))

/-- Invariant of the neighbour-examination fold inside one loop iteration:
`P1` is the set of already painted coordinates (the dequeued one included),
`q` the pending queue and `v` the visited set. -/
structure FoldInv (W H : Int) (fr fg fb : Nat) (d0 : Array Nat)
    (s0 : Int × Int) (P1 q v : List (Int × Int)) : Prop where
  vIn : ∀ p ∈ v, inB W H p
  qv : ∀ p ∈ q, p ∈ v
  pv : ∀ p ∈ P1, p ∈ v
  qNodup : q.Nodup
  qP : ∀ p ∈ q, p ∉ P1
  qReach : ∀ p ∈ q, Reach (okPix W H fr fg fb d0) s0 p
  vCases : ∀ p ∈ v, p ∈ P1 ∨ p ∈ q ∨ lineAt W fr fg fb d0 p = true
  seedV : s0 ∈ v

/-- Loop invariant of the flood-fill search: `Q` is the queue, `V` the
visited set, `P` the (ghost) list of painted coordinates, `d` the current
buffer. -/
structure BInv (W H : Int) (fr fg fb : Nat) (d0 : Array Nat)
    (s0 : Int × Int) (Q V P : List (Int × Int)) (d : Array Nat) : Prop where
  paint : Paint W H fr fg fb d0 d P
  vIn : ∀ p ∈ V, inB W H p
  qv : ∀ p ∈ Q, p ∈ V
  pv : ∀ p ∈ P, p ∈ V
  qNodup : Q.Nodup
  pNodup : P.Nodup
  qP : ∀ p ∈ Q, p ∉ P
  qReach : ∀ p ∈ Q, Reach (okPix W H fr fg fb d0) s0 p
  pReach : ∀ p ∈ P, Reach (okPix W H fr fg fb d0) s0 p
  frontier : ∀ p ∈ P, ∀ n ∈ neighbors p, inB W H n → n ∈ V
  vCases : ∀ p ∈ V, p ∈ P ∨ p ∈ Q ∨ lineAt W fr fg fb d0 p = true
  seedV : s0 ∈ V

/-- The history invariant of §4.3: the most recent history entry equals the
current buffer contents. -/
def HistInv (s : EngineState) : Prop :=
  s.history.getLast? = some s.canvas

instance (s : EngineState) : Decidable (HistInv s) := by
  unfold HistInv
  infer_instance

/-- All recorded snapshots have the canvas's dimensions and are well formed
(true in any run without resizes). -/
def DimsOK (s : EngineState) : Prop :=
  ∀ im ∈ s.history ++ s.redoHistory,
    im.width = s.canvas.width ∧ im.height = s.canvas.height ∧ im.WF

instance (s : EngineState) : Decidable (DimsOK s) := by
  unfold DimsOK
  infer_instance

/-- The finite set of in-bounds coordinates of a `W × H` canvas. -/
def gridFinset (W H : Int) : Finset (Int × Int) :=
  Finset.Icc 0 (W - 1) ×ˢ Finset.Icc 0 (H - 1)

/-! ### Arithmetic and array lemmas -/

theorem pixIndex_lt {x y w h : Nat} (hx : x < w) (hy : y < h) :
    y * w + x < w * h := by
  calc y * w + x < y * w + w := by omega
    _ = (y + 1) * w := by ring
    _ ≤ h * w := Nat.mul_le_mul_right w hy
    _ = w * h := Nat.mul_comm h w

theorem pixMod {x y w : Nat} (hx : x < w) : (y * w + x) % w = x := by
  rw [Nat.add_comm, Nat.add_mul_mod_self_right, Nat.mod_eq_of_lt hx]

theorem pixDiv {x y w : Nat} (hx : x < w) : (y * w + x) / w = y := by
  rw [Nat.add_comm, Nat.add_mul_div_right _ _ (Nat.pos_of_ne_zero (by omega))]
  simp [Nat.div_eq_of_lt hx]

theorem getD_ofFn {n : Nat} (f : Fin n → Nat) {i : Nat} (h : i < n) :
    (Array.ofFn f).getD i 0 = f ⟨i, h⟩ := by
  have hs : i < (Array.ofFn f).size := by simpa using h
  simp [Array.getD, hs, h]

theorem getD_lt {a : Array Nat} {i : Nat} (h : i < a.size) :
    a.getD i 0 = a[i] := by
  simp [Array.getD, h]

theorem jsSet_size (d : Array Nat) (i : Int) (v : Nat) :
    (jsSet d i v).size = d.size := by
  unfold jsSet
  split
  · exact Array.size_setD d i.toNat v
  · rfl

theorem jsGet_of_lt {d : Array Nat} {m : Nat} (h : m < d.size) :
    jsGet d (m : Int) = some d[m] := by
  unfold jsGet
  rw [if_pos (Int.ofNat_nonneg m)]
  simp [Array.getElem?_eq_getElem, h]

theorem jsGet_neg {d : Array Nat} {i : Int} (h : i < 0) : jsGet d i = none := by
  unfold jsGet
  rw [if_neg (by omega)]

theorem jsGet_of_size_le {d : Array Nat} {i : Int} (h : (d.size : Int) ≤ i) :
    jsGet d i = none := by
  unfold jsGet
  split
  · exact Array.getElem?_eq_none_iff.mpr (by omega)
  · rfl

theorem jsGet_jsSet_self {d : Array Nat} {i : Int} (h0 : 0 ≤ i)
    (h : i.toNat < d.size) (v : Nat) : jsGet (jsSet d i v) i = some v := by
  unfold jsGet jsSet
  rw [if_pos h0, if_pos h0]
  unfold Array.setD
  rw [dif_pos h]
  rw [Array.getElem?_set_eq]

theorem intPixMod {W x y : Int} (h0 : 0 ≤ x) (h : x < W) :
    (y * W + x) % W = x := by
  rw [Int.add_comm, Int.add_mul_emod_self]
  exact Int.emod_eq_of_lt h0 h

theorem intPixDiv {W x y : Int} (h0 : 0 ≤ x) (h : x < W) :
    (y * W + x) / W = y := by
  rw [Int.add_comm, Int.add_mul_ediv_right _ _ (by omega : W ≠ 0)]
  rw [Int.ediv_eq_zero_of_lt h0 h]
  omega

theorem flat_inj {W H : Int} {p q : Int × Int} (hp : inB W H p)
    (hq : inB W H q) (h : p.2 * W + p.1 = q.2 * W + q.1) : p = q := by
  obtain ⟨hp1, hp2, hp3, hp4⟩ := hp
  obtain ⟨hq1, hq2, hq3, hq4⟩ := hq
  have h1 : p.1 = q.1 := by
    have e1 := intPixMod hp1 hp2 (y := p.2)
    have e2 := intPixMod hq1 hq2 (y := q.2)
    rw [← e1, ← e2, h]
  have h2 : p.2 = q.2 := by
    have e1 := intPixDiv hp1 hp2 (y := p.2)
    have e2 := intPixDiv hq1 hq2 (y := q.2)
    rw [← e1, ← e2, h]
  exact Prod.ext h1 h2

theorem flatPos_disjoint {W H : Int} {p q : Int × Int} (hp : inB W H p)
    (hq : inB W H q) (hne : p ≠ q) {ch ch' : Int} (h0 : 0 ≤ ch) (h4 : ch < 4)
    (h0' : 0 ≤ ch') (h4' : ch' < 4) : flatPos W p + ch ≠ flatPos W q + ch' := by
  intro h
  apply hne
  apply flat_inj hp hq
  have h' : (p.2 * W + p.1) * 4 + ch = (q.2 * W + q.1) * 4 + ch' := h
  set m := p.2 * W + p.1 with hm
  set n := q.2 * W + q.1 with hn
  omega

theorem flatPos_bounds {W H : Int} {p : Int × Int} (hp : inB W H p) :
    0 ≤ flatPos W p ∧ flatPos W p + 3 < 4 * W * H := by
  obtain ⟨h1, h2, h3, h4⟩ := hp
  unfold flatPos
  have e1 : p.2 * W ≤ (H - 1) * W :=
    mul_le_mul_of_nonneg_right (by omega) (by omega)
  have e2 : (H - 1) * W = W * H - W := by ring
  have e3 : 0 ≤ p.2 * W := mul_nonneg (by omega) (by omega)
  have e4 : p.2 * W ≤ W * H - W := by rw [← e2]; exact e1
  have e5 : 4 * W * H = 4 * (W * H) := by ring
  rw [e5]
  set m := p.2 * W with hm
  set k := W * H with hk
  constructor <;> omega

theorem jsGet_jsSet_ne (d : Array Nat) {i j : Int} (v : Nat) (h : j ≠ i) :
    jsGet (jsSet d i v) j = jsGet d j := by
  unfold jsGet jsSet
  by_cases hj : 0 ≤ j
  · rw [if_pos hj, if_pos hj]
    by_cases hi : 0 ≤ i
    · rw [if_pos hi]
      unfold Array.setD
      split
      · exact Array.getElem?_set_ne d _ v (show i.toNat ≠ j.toNat by omega)
      · rfl
    · rw [if_neg hi]
  · rw [if_neg hj, if_neg hj]

theorem colorPixel_size (d : Array Nat) (pos : Int) (fr fg fb fa : Nat) :
    (colorPixel d pos fr fg fb fa).size = d.size := by
  unfold colorPixel
  rw [jsSet_size, jsSet_size, jsSet_size, jsSet_size]

theorem jsGet_colorPixel_self {d : Array Nat} {pos : Int} (h0 : 0 ≤ pos)
    (h3 : pos + 3 < (d.size : Int)) (fr fg fb fa : Nat) :
    jsGet (colorPixel d pos fr fg fb fa) pos = some fr ∧
    jsGet (colorPixel d pos fr fg fb fa) (pos + 1) = some fg ∧
    jsGet (colorPixel d pos fr fg fb fa) (pos + 2) = some fb ∧
    jsGet (colorPixel d pos fr fg fb fa) (pos + 3) = some fa := by
  unfold colorPixel
  have s1 : ∀ v : Nat, (jsSet d pos v).size = d.size := fun v => jsSet_size d pos v
  refine ⟨?_, ?_, ?_, ?_⟩
  · rw [jsGet_jsSet_ne _ _ (by omega), jsGet_jsSet_ne _ _ (by omega),
      jsGet_jsSet_ne _ _ (by omega)]
    exact jsGet_jsSet_self h0 (by omega) fr
  · rw [jsGet_jsSet_ne _ _ (by omega), jsGet_jsSet_ne _ _ (by omega)]
    exact jsGet_jsSet_self (by omega) (by rw [jsSet_size]; omega) fg
  · rw [jsGet_jsSet_ne _ _ (by omega)]
    exact jsGet_jsSet_self (by omega) (by rw [jsSet_size, jsSet_size]; omega) fb
  · exact jsGet_jsSet_self (by omega)
      (by rw [jsSet_size, jsSet_size, jsSet_size]; omega) fa

theorem jsGet_colorPixel_ne {d : Array Nat} {pos j : Int} (h0 : j ≠ pos)
    (h1 : j ≠ pos + 1) (h2 : j ≠ pos + 2) (h3 : j ≠ pos + 3)
    (fr fg fb fa : Nat) :
    jsGet (colorPixel d pos fr fg fb fa) j = jsGet d j := by
  unfold colorPixel
  rw [jsGet_jsSet_ne _ _ h3, jsGet_jsSet_ne _ _ h2, jsGet_jsSet_ne _ _ h1,
    jsGet_jsSet_ne _ _ h0]

theorem isLine_congr {d d' : Array Nat} {pos : Int}
    (h0 : jsGet d pos = jsGet d' pos) (h1 : jsGet d (pos + 1) = jsGet d' (pos + 1))
    (h2 : jsGet d (pos + 2) = jsGet d' (pos + 2)) (fr fg fb : Nat) :
    isLine d pos fr fg fb = isLine d' pos fr fg fb := by
  unfold isLine
  rw [h0, h1, h2]

theorem Reach.ok_of {ok : Int × Int → Prop} {s p : Int × Int}
    (h : Reach ok s p) : ok p := by
  cases h with
  | refl h => exact h
  | step _ _ h => exact h

theorem Reach.mono {ok1 ok2 : Int × Int → Prop} (hsub : ∀ p, ok1 p → ok2 p)
    {s p : Int × Int} (h : Reach ok1 s p) : Reach ok2 s p := by
  induction h with
  | refl h => exact Reach.refl (hsub _ h)
  | step _ hn hok ih => exact Reach.step ih hn (hsub _ hok)

theorem mem_gridFinset {W H : Int} {p : Int × Int} :
    p ∈ gridFinset W H ↔ inB W H p := by
  unfold gridFinset inB
  rw [Finset.mem_product, Finset.mem_Icc, Finset.mem_Icc]
  omega

theorem gridFinset_card {W H : Int} (hW : 0 ≤ W) (hH : 0 ≤ H) :
    (gridFinset W H).card = W.toNat * H.toNat := by
  unfold gridFinset
  rw [Finset.card_product, Int.card_Icc, Int.card_Icc]
  congr 1 <;> omega

theorem nodup_inB_length {W H : Int} (hW : 0 ≤ W) (hH : 0 ≤ H)
    {l : List (Int × Int)} (hnd : l.Nodup) (hin : ∀ p ∈ l, inB W H p) :
    l.length ≤ W.toNat * H.toNat := by
  rw [← gridFinset_card hW hH, ← List.toFinset_card_of_nodup hnd]
  apply Finset.card_le_card
  intro p hp
  rw [mem_gridFinset]
  exact hin p (List.mem_toFinset.mp hp)

/-! ### Painting lemmas -/

theorem Paint.size_int {W H : Int} {fr fg fb : Nat} {d0 d : Array Nat}
    {P : List (Int × Int)} (hp : Paint W H fr fg fb d0 d P)
    (hsz0 : (d0.size : Int) = 4 * W * H) : (d.size : Int) = 4 * W * H := by
  rw [hp.1]; exact hsz0

theorem Paint.empty {W H : Int} (fr fg fb : Nat) (d0 : Array Nat) :
    Paint W H fr fg fb d0 d0 [] := by
  refine ⟨rfl, fun p hp => ⟨fun h => absurd h (List.not_mem_nil p), fun _ _ _ _ => rfl⟩⟩

theorem chanAt_colorPixel_other {W H : Int} {d : Array Nat} {p x : Int × Int}
    (hpin : inB W H p) (hx : inB W H x) (hne : p ≠ x) {ch : Int}
    (h0 : 0 ≤ ch) (h4 : ch < 4) (fr fg fb fa : Nat) :
    chanAt W (colorPixel d (flatPos W x) fr fg fb fa) p ch =
      chanAt W d p ch := by
  have hbase : p.2 * W + p.1 ≠ x.2 * W + x.1 := fun h => hne (flat_inj hpin hx h)
  unfold chanAt flatPos
  set m := p.2 * W + p.1 with hm
  set n := x.2 * W + x.1 with hn
  apply jsGet_colorPixel_ne <;> omega

theorem chanAt_colorPixel_self {W H : Int} {d : Array Nat} {x : Int × Int}
    (hx : inB W H x) (hsz : (d.size : Int) = 4 * W * H) (fr fg fb fa : Nat) :
    chanAt W (colorPixel d (flatPos W x) fr fg fb fa) x 0 = some fr ∧
    chanAt W (colorPixel d (flatPos W x) fr fg fb fa) x 1 = some fg ∧
    chanAt W (colorPixel d (flatPos W x) fr fg fb fa) x 2 = some fb ∧
    chanAt W (colorPixel d (flatPos W x) fr fg fb fa) x 3 = some fa := by
  obtain ⟨hb0, hb3⟩ := flatPos_bounds hx
  have h := jsGet_colorPixel_self hb0 (by omega) fr fg fb fa (d := d)
  unfold chanAt
  refine ⟨?_, h.2.1, h.2.2.1, h.2.2.2⟩
  rw [add_zero]
  exact h.1

theorem Paint.extend {W H : Int} {fr fg fb : Nat} {d0 d : Array Nat}
    {P : List (Int × Int)} (hp : Paint W H fr fg fb d0 d P)
    (hsz0 : (d0.size : Int) = 4 * W * H)
    {x : Int × Int} (hx : inB W H x) (hxP : x ∉ P) :
    Paint W H fr fg fb d0 (colorPixel d (flatPos W x) fr fg fb 255)
      (P ++ [x]) := by
  obtain ⟨hsz, hpt⟩ := hp
  have hszd : (d.size : Int) = 4 * W * H := by rw [hsz]; exact hsz0
  constructor
  · rw [colorPixel_size]; exact hsz
  · intro p hpin
    constructor
    · intro hmem
      rcases List.mem_append.mp hmem with hmem | hmem
      · have hne : p ≠ x := fun h => hxP (h ▸ hmem)
        have hold := (hpt p hpin).1 hmem
        refine ⟨?_, ?_, ?_, ?_⟩
        · rw [chanAt_colorPixel_other hpin hx hne (by omega) (by omega)]; exact hold.1
        · rw [chanAt_colorPixel_other hpin hx hne (by omega) (by omega)]; exact hold.2.1
        · rw [chanAt_colorPixel_other hpin hx hne (by omega) (by omega)]; exact hold.2.2.1
        · rw [chanAt_colorPixel_other hpin hx hne (by omega) (by omega)]; exact hold.2.2.2
      · have hpx : p = x := by simpa using hmem
        subst hpx
        exact chanAt_colorPixel_self hpin hszd fr fg fb 255
    · intro hnmem
      have hne : p ≠ x := by
        intro h
        exact hnmem (List.mem_append.mpr (Or.inr (by simp [h])))
      have hnP : p ∉ P := fun h => hnmem (List.mem_append.mpr (Or.inl h))
      intro ch h0 h4
      rw [chanAt_colorPixel_other hpin hx hne h0 h4]
      exact (hpt p hpin).2 hnP ch h0 h4

theorem lineAt_paint {W H : Int} {fr fg fb : Nat} {d0 d : Array Nat}
    {P : List (Int × Int)} (hp : Paint W H fr fg fb d0 d P)
    {n : Int × Int} (hn : inB W H n) (hnP : n ∉ P) :
    lineAt W fr fg fb d n = lineAt W fr fg fb d0 n := by
  have h := (hp.2 n hn).2 hnP
  unfold lineAt
  apply isLine_congr
  · have h0 := h 0 (by omega) (by omega)
    unfold chanAt at h0
    simpa using h0
  · have h1 := h 1 (by omega) (by omega)
    unfold chanAt at h1
    exact h1
  · have h2 := h 2 (by omega) (by omega)
    unfold chanAt at h2
    exact h2

/-! ### The neighbour-examination fold -/

theorem examineNeighbor_step {W H : Int} {fr fg fb : Nat} {d0 : Array Nat}
    {s0 : Int × Int} {P1 : List (Int × Int)} {d1 : Array Nat}
    (hpaint : Paint W H fr fg fb d0 d1 P1)
    {q v : List (Int × Int)} {n : Int × Int}
    (hF : FoldInv W H fr fg fb d0 s0 P1 q v)
    (hRn : inB W H n → lineAt W fr fg fb d0 n = false →
      Reach (okPix W H fr fg fb d0) s0 n) :
    FoldInv W H fr fg fb d0 s0 P1
      (examineNeighbor W H fr fg fb d1 (q, v) n).1
      (examineNeighbor W H fr fg fb d1 (q, v) n).2 ∧
    (∀ p ∈ v, p ∈ (examineNeighbor W H fr fg fb d1 (q, v) n).2) ∧
    (inB W H n → n ∈ (examineNeighbor W H fr fg fb d1 (q, v) n).2) := by
  unfold examineNeighbor
  dsimp only
  by_cases hc : inB W H n ∧ n ∉ v
  · rw [if_pos hc]
    obtain ⟨hin, hnv⟩ := hc
    have hnP1 : n ∉ P1 := fun h => hnv (hF.pv n h)
    have hline : isLine d1 (flatPos W n) fr fg fb = lineAt W fr fg fb d0 n :=
      lineAt_paint hpaint hin hnP1
    by_cases hl : isLine d1 (flatPos W n) fr fg fb = true
    · rw [if_pos hl]
      refine ⟨⟨?_, ?_, ?_, hF.qNodup, hF.qP, hF.qReach, ?_, ?_⟩, ?_, ?_⟩
      · intro p hp
        rcases List.mem_cons.mp hp with h | h
        · exact h ▸ hin
        · exact hF.vIn p h
      · exact fun p hp => List.mem_cons_of_mem n (hF.qv p hp)
      · exact fun p hp => List.mem_cons_of_mem n (hF.pv p hp)
      · intro p hp
        rcases List.mem_cons.mp hp with h | h
        · subst h
          exact Or.inr (Or.inr (hline ▸ hl))
        · exact hF.vCases p h
      · exact List.mem_cons_of_mem n hF.seedV
      · exact fun p hp => List.mem_cons_of_mem n hp
      · exact fun _ => List.mem_cons_self n v
    · rw [if_neg hl]
      have hl0 : lineAt W fr fg fb d0 n = false := by
        rw [← hline]
        exact Bool.eq_false_iff.mpr hl
      refine ⟨⟨?_, ?_, ?_, ?_, ?_, ?_, ?_, ?_⟩, ?_, ?_⟩
      · intro p hp
        rcases List.mem_cons.mp hp with h | h
        · exact h ▸ hin
        · exact hF.vIn p h
      · intro p hp
        rcases List.mem_append.mp hp with h | h
        · exact List.mem_cons_of_mem n (hF.qv p h)
        · have : p = n := by simpa using h
          exact this ▸ List.mem_cons_self n v
      · exact fun p hp => List.mem_cons_of_mem n (hF.pv p hp)
      · rw [List.nodup_append]
        refine ⟨hF.qNodup, List.nodup_singleton n, ?_⟩
        intro a ha hb
        have : a = n := by simpa using hb
        subst this
        exact hnv (hF.qv a ha)
      · intro p hp
        rcases List.mem_append.mp hp with h | h
        · exact hF.qP p h
        · have : p = n := by simpa using h
          exact this ▸ hnP1
      · intro p hp
        rcases List.mem_append.mp hp with h | h
        · exact hF.qReach p h
        · have : p = n := by simpa using h
          exact this ▸ hRn hin hl0
      · intro p hp
        rcases List.mem_cons.mp hp with h | h
        · subst h
          exact Or.inr (Or.inl (List.mem_append.mpr (Or.inr (by simp))))
        · rcases hF.vCases p h with h1 | h1 | h1
          · exact Or.inl h1
          · exact Or.inr (Or.inl (List.mem_append.mpr (Or.inl h1)))
          · exact Or.inr (Or.inr h1)
      · exact List.mem_cons_of_mem n hF.seedV
      · exact fun p hp => List.mem_cons_of_mem n hp
      · exact fun _ => List.mem_cons_self n v
  · rw [if_neg hc]
    refine ⟨hF, fun p hp => hp, ?_⟩
    intro hin
    by_contra hnv
    exact hc ⟨hin, hnv⟩

theorem examineNeighbor_fold {W H : Int} {fr fg fb : Nat} {d0 : Array Nat}
    {s0 : Int × Int} {P1 : List (Int × Int)} {d1 : Array Nat}
    (hpaint : Paint W H fr fg fb d0 d1 P1) :
    ∀ (ns : List (Int × Int)) (q v : List (Int × Int)),
    FoldInv W H fr fg fb d0 s0 P1 q v →
    (∀ n ∈ ns, inB W H n → lineAt W fr fg fb d0 n = false →
      Reach (okPix W H fr fg fb d0) s0 n) →
    FoldInv W H fr fg fb d0 s0 P1
      (ns.foldl (examineNeighbor W H fr fg fb d1) (q, v)).1
      (ns.foldl (examineNeighbor W H fr fg fb d1) (q, v)).2 ∧
    (∀ p ∈ v, p ∈ (ns.foldl (examineNeighbor W H fr fg fb d1) (q, v)).2) ∧
    (∀ n ∈ ns, inB W H n →
      n ∈ (ns.foldl (examineNeighbor W H fr fg fb d1) (q, v)).2) := by
  intro ns
  induction ns with
  | nil =>
    intro q v hF _
    exact ⟨hF, fun p hp => hp, fun n hn => absurd hn (List.not_mem_nil n)⟩
  | cons n ns ih =>
    intro q v hF hRns
    rw [List.foldl_cons]
    obtain ⟨hF1, hsub1, hmem1⟩ :=
      examineNeighbor_step hpaint hF (hRns n (List.mem_cons_self n ns))
    obtain ⟨hF2, hsub2, hmem2⟩ :=
      ih (examineNeighbor W H fr fg fb d1 (q, v) n).1
        (examineNeighbor W H fr fg fb d1 (q, v) n).2 hF1
        (fun m hm => hRns m (List.mem_cons_of_mem n hm))
    refine ⟨hF2, ?_, ?_⟩
    · intro p hp
      exact hsub2 p (hsub1 p hp)
    · intro m hm hmin
      rcases List.mem_cons.mp hm with h | h
      · subst h
        exact hsub2 m (hmem1 hmin)
      · exact hmem2 m h hmin

/-! ### The flood-fill loop: invariant and correctness -/

theorem bfsLoop_spec {W H : Int} {fr fg fb : Nat} {d0 : Array Nat}
    {s0 : Int × Int} (hW : 0 ≤ W) (hH : 0 ≤ H)
    (hsz0 : (d0.size : Int) = 4 * W * H) :
    ∀ (fuel : Nat) (Q V P : List (Int × Int)) (d : Array Nat),
    BInv W H fr fg fb d0 s0 Q V P d →
    W.toNat * H.toNat + 1 ≤ fuel + P.length →
    FillResult W H fr fg fb d0 s0 (bfsLoop W H fr fg fb 255 fuel Q V d) := by
  intro fuel
  induction fuel with
  | zero =>
    intro Q V P d hInv hfuel
    exfalso
    have hlen := nodup_inB_length hW hH hInv.pNodup
      (fun p hp => ((hInv.pReach p hp).ok_of).1)
    omega
  | succ fuel ih =>
    intro Q V P d hInv hfuel
    match Q with
    | [] =>
      have hPfin : ∀ p, Reach (okPix W H fr fg fb d0) s0 p → p ∈ P := by
        intro p hp
        induction hp with
        | refl hok =>
          rcases hInv.vCases s0 hInv.seedV with h | h | h
          · exact h
          · exact absurd h (List.not_mem_nil _)
          · rw [hok.2] at h
            simp at h
        | step _ hn hok ih2 =>
          have hv := hInv.frontier _ ih2 _ hn hok.1
          rcases hInv.vCases _ hv with h | h | h
          · exact h
          · exact absurd h (List.not_mem_nil _)
          · rw [hok.2] at h
            simp at h
      show FillResult W H fr fg fb d0 s0 d
      refine ⟨hInv.paint.1, ?_⟩
      intro p hpin
      constructor
      · intro hR
        exact (hInv.paint.2 p hpin).1 (hPfin p hR)
      · intro hnR ch h0 h4
        have hnP : p ∉ P := fun h => hnR (hInv.pReach p h)
        exact (hInv.paint.2 p hpin).2 hnP ch h0 h4
    | x :: rest =>
      simp only [bfsLoop]
      have hxQ : x ∈ x :: rest := List.mem_cons_self x rest
      have hxin : inB W H x := ((hInv.qReach x hxQ).ok_of).1
      have hxP : x ∉ P := hInv.qP x hxQ
      have hpaint1 : Paint W H fr fg fb d0
          (colorPixel d (flatPos W x) fr fg fb 255) (P ++ [x]) :=
        hInv.paint.extend hsz0 hxin hxP
      have hF0 : FoldInv W H fr fg fb d0 s0 (P ++ [x]) rest V := by
        refine ⟨hInv.vIn, ?_, ?_, (List.nodup_cons.mp hInv.qNodup).2, ?_, ?_, ?_,
          hInv.seedV⟩
        · exact fun p hp => hInv.qv p (List.mem_cons_of_mem x hp)
        · intro p hp
          rcases List.mem_append.mp hp with h | h
          · exact hInv.pv p h
          · have : p = x := by simpa using h
            exact this ▸ hInv.qv x hxQ
        · intro p hp
          intro hmem
          rcases List.mem_append.mp hmem with h | h
          · exact hInv.qP p (List.mem_cons_of_mem x hp) h
          · have : p = x := by simpa using h
            subst this
            exact (List.nodup_cons.mp hInv.qNodup).1 hp
        · exact fun p hp => hInv.qReach p (List.mem_cons_of_mem x hp)
        · intro p hp
          rcases hInv.vCases p hp with h | h | h
          · exact Or.inl (List.mem_append.mpr (Or.inl h))
          · rcases List.mem_cons.mp h with h1 | h1
            · exact Or.inl (List.mem_append.mpr (Or.inr (by simp [h1])))
            · exact Or.inr (Or.inl h1)
          · exact Or.inr (Or.inr h)
      have hRstep : ∀ n ∈ neighbors x, inB W H n →
          lineAt W fr fg fb d0 n = false →
          Reach (okPix W H fr fg fb d0) s0 n := by
        intro n hn hin hl
        exact Reach.step (hInv.qReach x hxQ) hn ⟨hin, hl⟩
      obtain ⟨hF, hsub, hmem⟩ :=
        examineNeighbor_fold hpaint1 (neighbors x) rest V hF0 hRstep
      apply ih _ _ (P ++ [x]) _ ?_ ?_
      · refine ⟨hpaint1, hF.vIn, hF.qv, hF.pv, hF.qNodup, ?_, hF.qP,
          hF.qReach, ?_, ?_, hF.vCases, hF.seedV⟩
        · rw [List.nodup_append]
          refine ⟨hInv.pNodup, List.nodup_singleton x, ?_⟩
          intro a ha hb
          have : a = x := by simpa using hb
          exact hxP (this ▸ ha)
        · intro p hp
          rcases List.mem_append.mp hp with h | h
          · exact hInv.pReach p h
          · have : p = x := by simpa using h
            exact this ▸ hInv.qReach x hxQ
        · intro p hp n hn hnin
          rcases List.mem_append.mp hp with h | h
          · exact hsub n (hInv.frontier p h n hn hnin)
          · have : p = x := by simpa using h
            subst this
            exact hmem n hn hnin
      · have : (P ++ [x]).length = P.length + 1 := by simp
        omega

theorem bfs_result {W H : Int} {fr fg fb : Nat} {d0 : Array Nat}
    {s0 : Int × Int} (hsz0 : (d0.size : Int) = 4 * W * H)
    (hin : inB W H s0) (hline : lineAt W fr fg fb d0 s0 = false)
    (fuel : Nat) (hfuel : W.toNat * H.toNat + 1 ≤ fuel) :
    FillResult W H fr fg fb d0 s0
      (bfsLoop W H fr fg fb 255 fuel [s0] [s0] d0) := by
  have hW : 0 ≤ W := by obtain ⟨h1, h2, h3, h4⟩ := hin; omega
  have hH : 0 ≤ H := by obtain ⟨h1, h2, h3, h4⟩ := hin; omega
  apply bfsLoop_spec hW hH hsz0 fuel [s0] [s0] [] d0 ?_ (by simpa using hfuel)
  refine ⟨Paint.empty fr fg fb d0, ?_, ?_, ?_, List.nodup_singleton s0,
    List.nodup_nil, ?_, ?_, ?_, ?_, ?_, List.mem_singleton_self s0⟩
  · intro p hp
    have : p = s0 := by simpa using hp
    exact this ▸ hin
  · exact fun p hp => hp
  · exact fun p hp => absurd hp (List.not_mem_nil p)
  · exact fun p _ h => absurd h (List.not_mem_nil p)
  · intro p hp
    have hps : p = s0 := by simpa using hp
    subst hps
    exact Reach.refl ⟨hin, hline⟩
  · exact fun p hp => absurd hp (List.not_mem_nil p)
  · exact fun p hp => absurd hp (List.not_mem_nil p)
  · intro p hp
    exact Or.inr (Or.inl hp)

theorem index_decompose {W H : Int} (hW : 0 ≤ W) (hH : 0 ≤ H) {i : Nat}
    (hi : (i : Int) < 4 * W * H) :
    ∃ p : Int × Int, ∃ ch : Int, inB W H p ∧ 0 ≤ ch ∧ ch < 4 ∧
      flatPos W p + ch = (i : Int) := by
  have hi0 : (0 : Int) ≤ i := Int.ofNat_nonneg i
  have hWpos : 0 < W := by
    rcases lt_or_eq_of_le hW with h | h
    · exact h
    · exfalso
      rw [← h] at hi
      simp at hi
      omega
  have hHpos : 0 < H := by
    rcases lt_or_eq_of_le hH with h | h
    · exact h
    · exfalso
      rw [← h] at hi
      simp at hi
      omega
  refine ⟨(((i : Int) / 4) % W, ((i : Int) / 4) / W), (i : Int) % 4,
    ⟨Int.emod_nonneg _ (by omega), Int.emod_lt_of_pos _ hWpos, ?_, ?_⟩,
    Int.emod_nonneg _ (by omega), Int.emod_lt_of_pos _ (by omega), ?_⟩
  · exact Int.ediv_nonneg (Int.ediv_nonneg hi0 (by omega)) (by omega)
  · have h1 : (i : Int) / 4 < W * H := by
      rw [Int.ediv_lt_iff_lt_mul (by omega : (0:Int) < 4)]
      calc (i : Int) < 4 * W * H := hi
        _ = W * H * 4 := by ring
    rw [Int.ediv_lt_iff_lt_mul hWpos]
    calc (i : Int) / 4 < W * H := h1
      _ = H * W := by ring
  · unfold flatPos
    dsimp only
    have e1 : (i : Int) / 4 / W * W + (i : Int) / 4 % W = (i : Int) / 4 := by
      rw [mul_comm]
      exact Int.ediv_add_emod ((i : Int) / 4) W
    rw [e1]
    omega

theorem fillResult_unique {W H : Int} (hW : 0 ≤ W) (hH : 0 ≤ H)
    {fr fg fb : Nat} {d0 : Array Nat} {s0 : Int × Int}
    (hsz0 : (d0.size : Int) = 4 * W * H) {d d' : Array Nat}
    (h1 : FillResult W H fr fg fb d0 s0 d)
    (h2 : FillResult W H fr fg fb d0 s0 d') : d = d' := by
  apply Array.ext
  · rw [h1.1, h2.1]
  · intro i hi hi'
    have hiI : (i : Int) < 4 * W * H := by
      rw [← hsz0]
      have : i < d0.size := by rw [← h1.1]; exact hi
      exact_mod_cast this
    obtain ⟨p, ch, hpin, hch0, hch4, hflat⟩ := index_decompose hW hH hiI
    have hgd : chanAt W d p ch = some d[i] := by
      unfold chanAt
      rw [hflat]
      exact jsGet_of_lt hi
    have hgd' : chanAt W d' p ch = some d'[i] := by
      unfold chanAt
      rw [hflat]
      exact jsGet_of_lt hi'
    by_cases hR : Reach (okPix W H fr fg fb d0) s0 p
    · have ha := (h1.2 p hpin).1 hR
      have hb := (h2.2 p hpin).1 hR
      have heq : chanAt W d p ch = chanAt W d' p ch := by
        interval_cases ch
        · rw [ha.1, hb.1]
        · rw [ha.2.1, hb.2.1]
        · rw [ha.2.2.1, hb.2.2.1]
        · rw [ha.2.2.2, hb.2.2.2]
      rw [hgd, hgd'] at heq
      exact Option.some.inj heq
    · have ha := (h1.2 p hpin).2 hR ch hch0 hch4
      have hb := (h2.2 p hpin).2 hR ch hch0 hch4
      have heq : chanAt W d p ch = chanAt W d' p ch := by rw [ha, hb]
      rw [hgd, hgd'] at heq
      exact Option.some.inj heq

/-! ### floodFill at the engine level -/

theorem WF_size_int {im : ImageData} (h : im.WF) :
    (im.data.size : Int) = 4 * (im.width : Int) * (im.height : Int) := by
  unfold ImageData.WF at h
  exact_mod_cast h

theorem floodFillFuel_noop {fuel : Nat} {sx sy : Int} {fr fg fb : Nat}
    {s : EngineState}
    (h : (chanAt (s.canvas.width : Int) s.canvas.data (sx, sy) 0 = some fr ∧
          chanAt (s.canvas.width : Int) s.canvas.data (sx, sy) 1 = some fg ∧
          chanAt (s.canvas.width : Int) s.canvas.data (sx, sy) 2 = some fb) ∨
         lineAt (s.canvas.width : Int) fr fg fb s.canvas.data (sx, sy) = true) :
    floodFillFuel fuel sx sy fr fg fb s = s := by
  unfold floodFillFuel
  dsimp only
  by_cases hc : (jsGet s.canvas.data ((sy * (s.canvas.width : Int) + sx) * 4)
        == some fr &&
      jsGet s.canvas.data ((sy * (s.canvas.width : Int) + sx) * 4 + 1)
        == some fg &&
      jsGet s.canvas.data ((sy * (s.canvas.width : Int) + sx) * 4 + 2)
        == some fb) = true
  · rw [if_pos hc]
  · rw [if_neg hc]
    have hl : isLine s.canvas.data ((sy * (s.canvas.width : Int) + sx) * 4)
        fr fg fb = true := by
      rcases h with h | h
      · exfalso
        apply hc
        have h1 := h.1
        have h2 := h.2.1
        have h3 := h.2.2
        simp [chanAt, flatPos] at h1 h2 h3
        rw [Bool.and_eq_true, Bool.and_eq_true]
        refine ⟨⟨?_, ?_⟩, ?_⟩ <;> rw [beq_iff_eq] <;> assumption
      · exact h
    rw [if_pos hl]

theorem seed_ne_of_not_line {W : Int} {fr fg fb : Nat} {d : Array Nat}
    {p : Int × Int} (h : lineAt W fr fg fb d p = false) :
    ¬(chanAt W d p 0 = some fr ∧ chanAt W d p 1 = some fg ∧
      chanAt W d p 2 = some fb) := by
  intro hcon
  obtain ⟨e1, e2, e3⟩ := hcon
  unfold lineAt isLine at h
  unfold chanAt at e1 e2 e3
  rw [add_zero] at e1
  rw [e1, e2, e3] at h
  simp at h

theorem floodFillFuel_commit {fuel : Nat} {sx sy : Int} {fr fg fb : Nat}
    {s : EngineState}
    (h1 : ¬(chanAt (s.canvas.width : Int) s.canvas.data (sx, sy) 0 = some fr ∧
            chanAt (s.canvas.width : Int) s.canvas.data (sx, sy) 1 = some fg ∧
            chanAt (s.canvas.width : Int) s.canvas.data (sx, sy) 2 = some fb))
    (h2 : lineAt (s.canvas.width : Int) fr fg fb s.canvas.data (sx, sy)
      = false) :
    floodFillFuel fuel sx sy fr fg fb s =
      ⟨⟨s.canvas.width, s.canvas.height,
          bfsLoop (s.canvas.width : Int) (s.canvas.height : Int)
            fr fg fb 255 fuel [(sx, sy)] [(sx, sy)] s.canvas.data⟩,
        s.history ++ [⟨s.canvas.width, s.canvas.height,
          bfsLoop (s.canvas.width : Int) (s.canvas.height : Int)
            fr fg fb 255 fuel [(sx, sy)] [(sx, sy)] s.canvas.data⟩],
        []⟩ := by
  unfold floodFillFuel
  dsimp only
  have hcne : ¬(jsGet s.canvas.data ((sy * (s.canvas.width : Int) + sx) * 4)
        == some fr &&
      jsGet s.canvas.data ((sy * (s.canvas.width : Int) + sx) * 4 + 1)
        == some fg &&
      jsGet s.canvas.data ((sy * (s.canvas.width : Int) + sx) * 4 + 2)
        == some fb) = true := by
    intro hcon
    apply h1
    rw [Bool.and_eq_true, Bool.and_eq_true] at hcon
    obtain ⟨⟨e1, e2⟩, e3⟩ := hcon
    rw [beq_iff_eq] at e1 e2 e3
    refine ⟨?_, ?_, ?_⟩ <;> simp [chanAt, flatPos] <;> assumption
  rw [if_neg hcne]
  have hl : ¬ isLine s.canvas.data ((sy * (s.canvas.width : Int) + sx) * 4)
      fr fg fb = true := by
    intro hcon
    have : lineAt (s.canvas.width : Int) fr fg fb s.canvas.data (sx, sy)
        = true := hcon
    rw [h2] at this
    exact Bool.false_ne_true this
  rw [if_neg hl]

theorem floodFill_characterize {s : EngineState} (hwf : s.canvas.WF)
    {sx sy : Int} {fr fg fb : Nat}
    (hin : inB (s.canvas.width : Int) (s.canvas.height : Int) (sx, sy))
    (hline : lineAt (s.canvas.width : Int) fr fg fb s.canvas.data (sx, sy)
      = false) :
    (floodFill sx sy fr fg fb s).canvas.width = s.canvas.width ∧
    (floodFill sx sy fr fg fb s).canvas.height = s.canvas.height ∧
    (floodFill sx sy fr fg fb s).history =
      s.history ++ [(floodFill sx sy fr fg fb s).canvas] ∧
    (floodFill sx sy fr fg fb s).redoHistory = [] ∧
    FillResult (s.canvas.width : Int) (s.canvas.height : Int) fr fg fb
      s.canvas.data (sx, sy) (floodFill sx sy fr fg fb s).canvas.data := by
  unfold floodFill
  rw [floodFillFuel_commit (seed_ne_of_not_line hline) hline]
  refine ⟨rfl, rfl, rfl, rfl, ?_⟩
  apply bfs_result (WF_size_int hwf) hin hline
  have e1 : ((s.canvas.width : Int)).toNat = s.canvas.width := Int.toNat_ofNat _
  have e2 : ((s.canvas.height : Int)).toNat = s.canvas.height :=
    Int.toNat_ofNat _
  rw [e1, e2]

/-! ### putImageData lemmas -/

theorem putImageData_width (c img : ImageData) :
    (putImageData c img).width = c.width := rfl

theorem putImageData_height (c img : ImageData) :
    (putImageData c img).height = c.height := rfl

theorem putImageData_wf (c img : ImageData) : (putImageData c img).WF := by
  unfold putImageData ImageData.WF
  simp

theorem putImageData_getD (c img : ImageData) {x y : Nat} (hx : x < c.width)
    (hy : y < c.height) (ch : Nat) (hch : ch < 4) :
    (putImageData c img).data.getD ((y * c.width + x) * 4 + ch) 0 =
      if x < img.width ∧ y < img.height then
        img.data.getD ((y * img.width + x) * 4 + ch) 0
      else c.data.getD ((y * c.width + x) * 4 + ch) 0 := by
  unfold putImageData
  dsimp only
  have h1 : y * c.width + x < c.width * c.height := pixIndex_lt hx hy
  have hlt : (y * c.width + x) * 4 + ch < 4 * c.width * c.height := by
    have e := Nat.mul_assoc 4 c.width c.height
    set m := y * c.width + x with hm
    set k := c.width * c.height with hk
    omega
  rw [getD_ofFn _ hlt]
  dsimp only
  have hq : ((y * c.width + x) * 4 + ch) / 4 = y * c.width + x := by omega
  have hc : ((y * c.width + x) * 4 + ch) % 4 = ch := by omega
  rw [hq, hc, pixMod hx, pixDiv hx]

theorem putImageData_pixel (c img : ImageData) {x y : Nat} (hx : x < c.width)
    (hy : y < c.height) :
    getPixel (putImageData c img) x y =
      if x < img.width ∧ y < img.height then getPixel img x y
      else getPixel c x y := by
  have e0 := putImageData_getD c img hx hy 0 (by omega)
  have e1 := putImageData_getD c img hx hy 1 (by omega)
  have e2 := putImageData_getD c img hx hy 2 (by omega)
  have e3 := putImageData_getD c img hx hy 3 (by omega)
  simp only [Nat.add_zero] at e0
  unfold getPixel
  dsimp only
  rw [putImageData_width]
  by_cases hcond : x < img.width ∧ y < img.height
  · rw [if_pos hcond] at e0 e1 e2 e3
    rw [if_pos hcond]
    simp only [Prod.mk.injEq]
    exact ⟨e0, e1, e2, e3⟩
  · rw [if_neg hcond] at e0 e1 e2 e3
    rw [if_neg hcond]
    simp only [Prod.mk.injEq]
    exact ⟨e0, e1, e2, e3⟩

theorem putImageData_self {c img : ImageData} (hw : img.width = c.width)
    (hh : img.height = c.height) (hwf : img.WF) : putImageData c img = img := by
  unfold ImageData.WF at hwf
  obtain ⟨iw, ih, idata⟩ := img
  obtain ⟨cw, chh, cdata⟩ := c
  dsimp at hw hh hwf
  subst hw
  subst hh
  unfold putImageData
  dsimp only
  simp only [ImageData.mk.injEq, true_and]
  apply Array.ext
  · simp [hwf]
  · intro i hi hi'
    have hisz : i < 4 * iw * ih := by simpa using hi
    have hw0 : 0 < iw := by
      rcases Nat.eq_zero_or_pos iw with h | h
      · subst h
        simp at hisz
      · exact h
    have hh0 : 0 < ih := by
      rcases Nat.eq_zero_or_pos ih with h | h
      · subst h
        simp at hisz
      · exact h
    have hgf := getD_ofFn (i := i)
      (f := fun i : Fin (4 * iw * ih) =>
        if (i : Nat) / 4 % iw < iw ∧ (i : Nat) / 4 / iw < ih then
          idata.getD (((i : Nat) / 4 / iw * iw + (i : Nat) / 4 % iw) * 4 +
            (i : Nat) % 4) 0
        else cdata.getD (i : Nat) 0) hisz
    rw [getD_lt hi] at hgf
    rw [hgf]
    dsimp only
    have hxlt : i / 4 % iw < iw := Nat.mod_lt _ hw0
    have hylt : i / 4 / iw < ih := by
      rw [Nat.div_lt_iff_lt_mul hw0]
      have e := Nat.mul_assoc 4 iw ih
      have e2 : ih * iw = iw * ih := Nat.mul_comm ih iw
      rw [Nat.div_lt_iff_lt_mul (by omega : 0 < 4)]
      set k := iw * ih with hk
      omega
    rw [if_pos ⟨hxlt, hylt⟩]
    have hrec : (i / 4 / iw * iw + i / 4 % iw) * 4 + i % 4 = i := by
      have e1 : i / 4 / iw * iw + i / 4 % iw = i / 4 := by
        rw [Nat.mul_comm]
        exact Nat.div_add_mod (i / 4) iw
      rw [e1]
      omega
    rw [hrec]
    exact getD_lt (by omega : i < idata.size)

/-! ### History / undo / redo lemmas -/

theorem whiteImage_wf (w h : Nat) : (whiteImage w h).WF := by
  unfold whiteImage ImageData.WF
  simp

theorem undo_iter {W H : Nat} :
    ∀ (hs : List ImageData) (h0 : ImageData) (r : List ImageData)
      (c : ImageData),
    (h0 :: hs).getLast? = some c →
    (∀ im ∈ h0 :: hs, im.width = W ∧ im.height = H ∧ im.WF) →
    Nat.iterate handleUndo hs.length ⟨c, h0 :: hs, r⟩ = ⟨h0, [h0], hs ++ r⟩ := by
  intro hs
  induction hs using List.reverseRecOn with
  | nil =>
    intro h0 r c hlast hdims
    simp at hlast
    subst hlast
    rfl
  | append_singleton l a ih =>
    intro h0 r c hlast hdims
    have hca : a = c := by
      have h' : ((h0 :: l) ++ [a]).getLast? = some c := hlast
      rw [List.getLast?_concat] at h'
      exact Option.some.inj h'
    subst hca
    have hne : h0 :: l ≠ [] := List.cons_ne_nil h0 l
    have hp0 : (h0 :: l).getLast? = some ((h0 :: l).getLast hne) :=
      List.getLast?_eq_getLast (h0 :: l) hne
    have hp0mem : (h0 :: l).getLast hne ∈ h0 :: l := List.getLast_mem hne
    have hp0dims := hdims _ (by
      rcases List.mem_cons.mp hp0mem with h | h
      · exact List.mem_cons.mpr (Or.inl h)
      · exact List.mem_cons.mpr (Or.inr (List.mem_append.mpr (Or.inl h))))
    have hadims := hdims a (by simp)
    have hstep : handleUndo ⟨a, h0 :: (l ++ [a]), r⟩ =
        ⟨(h0 :: l).getLast hne, h0 :: l, a :: r⟩ := by
      unfold handleUndo
      rw [if_neg (by simp)]
      dsimp only
      have e1 : (h0 :: (l ++ [a])).getLast?.getD emptyImage = a := by
        have e : ((h0 :: l) ++ [a]).getLast? = some a := List.getLast?_concat _
        rw [show h0 :: (l ++ [a]) = (h0 :: l) ++ [a] from rfl, e]
        rfl
      have e2 : (h0 :: (l ++ [a])).dropLast = h0 :: l := by
        rw [show h0 :: (l ++ [a]) = (h0 :: l) ++ [a] from rfl]
        exact List.dropLast_concat
      rw [e1, e2, hp0]
      have e3 : putImageData a ((h0 :: l).getLast hne) =
          (h0 :: l).getLast hne := by
        apply putImageData_self
        · rw [hp0dims.1, hadims.1]
        · rw [hp0dims.2.1, hadims.2.1]
        · exact hp0dims.2.2
      rw [show (some ((h0 :: l).getLast hne)).getD emptyImage =
        (h0 :: l).getLast hne from rfl, e3]
    rw [show (l ++ [a]).length = l.length + 1 by simp,
      Function.iterate_succ_apply, hstep]
    have := ih h0 (a :: r) ((h0 :: l).getLast hne) hp0
      (fun im him => hdims im (by
        rcases List.mem_cons.mp him with h | h
        · exact List.mem_cons.mpr (Or.inl h)
        · exact List.mem_cons.mpr (Or.inr (List.mem_append.mpr (Or.inl h)))))
    rw [this]
    simp

theorem redo_iter {W H : Nat} :
    ∀ (rs hist : List ImageData) (c : ImageData),
    hist.getLast? = some c →
    (∀ im ∈ hist ++ rs, im.width = W ∧ im.height = H ∧ im.WF) →
    Nat.iterate handleRedo rs.length ⟨c, hist, rs⟩ =
      ⟨(hist ++ rs).getLast?.getD emptyImage, hist ++ rs, []⟩ := by
  intro rs
  induction rs with
  | nil =>
    intro hist c hlast hdims
    simp [hlast]
  | cons a rs' ih =>
    intro hist c hlast hdims
    have hcmem : c ∈ hist := by
      have hne : hist ≠ [] := by
        intro h
        rw [h] at hlast
        simp at hlast
      have := List.getLast?_eq_getLast hist hne
      rw [this] at hlast
      have : c = hist.getLast hne := (Option.some.inj hlast).symm
      exact this ▸ List.getLast_mem hne
    have hcdims := hdims c (List.mem_append.mpr (Or.inl hcmem))
    have hadims := hdims a (by simp)
    have hstep : handleRedo ⟨c, hist, a :: rs'⟩ = ⟨a, hist ++ [a], rs'⟩ := by
      unfold handleRedo
      dsimp only
      have e3 : putImageData c a = a := by
        apply putImageData_self
        · rw [hcdims.1, hadims.1]
        · rw [hcdims.2.1, hadims.2.1]
        · exact hadims.2.2
      rw [e3]
    rw [show (a :: rs').length = rs'.length + 1 from rfl,
      Function.iterate_succ_apply, hstep]
    have := ih (hist ++ [a]) a (List.getLast?_concat _)
      (fun im him => hdims im (by
        simp at him ⊢
        tauto))
    rw [this]
    simp

/-! ### Pixel-level bridges -/

theorem chanAt_eq_getD {w h : Nat} {d : Array Nat} (hsz : d.size = 4 * w * h)
    {x y : Nat} (hx : x < w) (hy : y < h) (ch : Nat) (hch : ch < 4) :
    chanAt (w : Int) d ((x : Int), (y : Int)) (ch : Int) =
      some (d.getD ((y * w + x) * 4 + ch) 0) := by
  have hlt : (y * w + x) * 4 + ch < d.size := by
    have h1 : y * w + x < w * h := pixIndex_lt hx hy
    have e := Nat.mul_assoc 4 w h
    set m := y * w + x
    set k := w * h
    omega
  have hflat : flatPos (w : Int) ((x : Int), (y : Int)) + (ch : Int) =
      (((y * w + x) * 4 + ch : Nat) : Int) := by
    unfold flatPos
    push_cast
    ring
  unfold chanAt
  rw [hflat, jsGet_of_lt hlt, getD_lt hlt]

theorem getPixel_from_chanAt {im : ImageData} (hwf : im.WF) {x y : Nat}
    (hx : x < im.width) (hy : y < im.height) {r g b a : Nat}
    (h0 : chanAt (im.width : Int) im.data ((x : Int), (y : Int)) 0 = some r)
    (h1 : chanAt (im.width : Int) im.data ((x : Int), (y : Int)) 1 = some g)
    (h2 : chanAt (im.width : Int) im.data ((x : Int), (y : Int)) 2 = some b)
    (h3 : chanAt (im.width : Int) im.data ((x : Int), (y : Int)) 3 = some a) :
    getPixel im x y = (r, g, b, a) := by
  unfold ImageData.WF at hwf
  have e0 := chanAt_eq_getD hwf hx hy 0 (by omega)
  have e1 := chanAt_eq_getD hwf hx hy 1 (by omega)
  have e2 := chanAt_eq_getD hwf hx hy 2 (by omega)
  have e3 := chanAt_eq_getD hwf hx hy 3 (by omega)
  simp only [Nat.add_zero] at e0
  rw [show ((0 : Nat) : Int) = (0 : Int) from rfl] at e0
  rw [show ((1 : Nat) : Int) = (1 : Int) from rfl] at e1
  rw [show ((2 : Nat) : Int) = (2 : Int) from rfl] at e2
  rw [show ((3 : Nat) : Int) = (3 : Int) from rfl] at e3
  rw [e0] at h0
  rw [e1] at h1
  rw [e2] at h2
  rw [e3] at h3
  unfold getPixel
  dsimp only
  rw [Option.some.inj h0, Option.some.inj h1, Option.some.inj h2,
    Option.some.inj h3]

theorem chanAt_getPixel_comp {im : ImageData} (hwf : im.WF) {x y : Nat}
    (hx : x < im.width) (hy : y < im.height) :
    chanAt (im.width : Int) im.data ((x : Int), (y : Int)) 0 =
      some (getPixel im x y).1 ∧
    chanAt (im.width : Int) im.data ((x : Int), (y : Int)) 1 =
      some (getPixel im x y).2.1 ∧
    chanAt (im.width : Int) im.data ((x : Int), (y : Int)) 2 =
      some (getPixel im x y).2.2.1 ∧
    chanAt (im.width : Int) im.data ((x : Int), (y : Int)) 3 =
      some (getPixel im x y).2.2.2 := by
  unfold ImageData.WF at hwf
  have e0 := chanAt_eq_getD hwf hx hy 0 (by omega)
  have e1 := chanAt_eq_getD hwf hx hy 1 (by omega)
  have e2 := chanAt_eq_getD hwf hx hy 2 (by omega)
  have e3 := chanAt_eq_getD hwf hx hy 3 (by omega)
  simp only [Nat.add_zero] at e0
  rw [show ((0 : Nat) : Int) = (0 : Int) from rfl] at e0
  rw [show ((1 : Nat) : Int) = (1 : Int) from rfl] at e1
  rw [show ((2 : Nat) : Int) = (2 : Int) from rfl] at e2
  rw [show ((3 : Nat) : Int) = (3 : Int) from rfl] at e3
  exact ⟨e0, e1, e2, e3⟩

theorem foldl_commit (ops : List ImageData) :
    ∀ (c : ImageData) (h : List ImageData),
    ops.foldl commitOp ⟨c, h, []⟩ =
      ⟨ops.getLast?.getD c, h ++ ops, []⟩ := by
  induction ops with
  | nil =>
    intro c h
    simp
  | cons a ops' ih =>
    intro c h
    rw [List.foldl_cons,
      show commitOp ⟨c, h, []⟩ a = ⟨a, h ++ [a], []⟩ from rfl, ih a (h ++ [a])]
    have e1 : (a :: ops').getLast?.getD c = ops'.getLast?.getD a := by
      cases ops' with
      | nil => rfl
      | cons b t =>
        rw [List.getLast?_cons_cons,
          List.getLast?_eq_getLast (b :: t) (List.cons_ne_nil b t)]
        rfl
    rw [e1]
    simp

/-! ### Claim theorems -/

/-- C7: every committed operation records its snapshot through `saveState`,
which empties the redo stack, so in any state just reached by a committed
operation (an explicit `saveState`, a committed stroke/shape via `commitOp`,
or a flood fill) a redo is a complete no-op: it changes neither the buffer,
nor the history, nor the redo stack. -/
theorem redo_invalidation (s : EngineState) :
    (saveState s).redoHistory = [] ∧
    handleRedo (saveState s) = saveState s ∧
    (s.redoHistory = [] → handleRedo s = s) ∧
    (∀ im : ImageData, handleRedo (commitOp s im) = commitOp s im) ∧
    (∀ sx sy : Int, ∀ fr fg fb : Nat,
      (floodFill sx sy fr fg fb s).redoHistory = [] ∨
      floodFill sx sy fr fg fb s = s) := by
  refine ⟨rfl, rfl, ?_, fun im => rfl, ?_⟩
  · intro h
    obtain ⟨cv, hist, rd⟩ := s
    dsimp at h
    subst h
    rfl
  · intro sx sy fr fg fb
    unfold floodFill floodFillFuel
    dsimp only
    split
    · exact Or.inr rfl
    · split
      · exact Or.inr rfl
      · exact Or.inl rfl

theorem redo_invalidation_witness :
    handleRedo ⟨whiteImage 1 1, [whiteImage 1 1], []⟩ =
      ⟨whiteImage 1 1, [whiteImage 1 1], []⟩ :=
  (redo_invalidation ⟨whiteImage 1 1, [whiteImage 1 1], []⟩).2.2.1 rfl

/-- C9: for an in-bounds seed, if the seed pixel's color already equals the
fill color, or the seed is classified as a boundary pixel, `floodFill`
returns the state unchanged: the buffer is untouched, nothing is appended to
history and the redo stack is not cleared.  In particular re-filling an
already-filled region with the same color is a pixel-identical no-op that
does not grow history. -/
theorem fill_noop_on_seed (s : EngineState) (hwf : s.canvas.WF)
    (sx sy : Int) (fr fg fb : Nat)
    (hin : inB (s.canvas.width : Int) (s.canvas.height : Int) (sx, sy))
    (h : ((getPixel s.canvas sx.toNat sy.toNat).1 = fr ∧
          (getPixel s.canvas sx.toNat sy.toNat).2.1 = fg ∧
          (getPixel s.canvas sx.toNat sy.toNat).2.2.1 = fb) ∨
         lineAt (s.canvas.width : Int) fr fg fb s.canvas.data (sx, sy)
           = true) :
    floodFill sx sy fr fg fb s = s := by
  unfold floodFill
  apply floodFillFuel_noop
  rcases h with h | h
  · left
    obtain ⟨hx1, hx2, hy1, hy2⟩ := hin
    have hxe : ((sx.toNat : Nat) : Int) = sx := Int.toNat_of_nonneg hx1
    have hye : ((sy.toNat : Nat) : Int) = sy := Int.toNat_of_nonneg hy1
    have hx : sx.toNat < s.canvas.width := by omega
    have hy : sy.toNat < s.canvas.height := by omega
    have hc := chanAt_getPixel_comp hwf hx hy
    rw [hxe, hye] at hc
    refine ⟨?_, ?_, ?_⟩
    · rw [hc.1, h.1]
    · rw [hc.2.1, h.2.1]
    · rw [hc.2.2.1, h.2.2]
  · right
    exact h

theorem fill_noop_on_seed_witness :
    floodFill 0 0 255 255 255 ⟨whiteImage 1 1, [whiteImage 1 1], []⟩ =
      ⟨whiteImage 1 1, [whiteImage 1 1], []⟩ :=
  fill_noop_on_seed ⟨whiteImage 1 1, [whiteImage 1 1], []⟩ (whiteImage_wf 1 1)
    0 0 255 255 255 (by decide) (Or.inl (by decide))

/-- C6: starting from the initial blank state, any sequence of N committed
drawing operations followed by N undos and then N redos restores the full
engine state — the buffer is pixel-identical to the pre-undo buffer and the
history has its prior length. -/
theorem undo_redo_inverse (W H : Nat) (ops : List ImageData)
    (hops : ∀ im ∈ ops, im.width = W ∧ im.height = H ∧ im.WF) :
    Nat.iterate handleRedo ops.length
      (Nat.iterate handleUndo ops.length
        (ops.foldl commitOp ⟨whiteImage W H, [whiteImage W H], []⟩)) =
      ops.foldl commitOp ⟨whiteImage W H, [whiteImage W H], []⟩ := by
  have hdims : ∀ im ∈ whiteImage W H :: ops,
      im.width = W ∧ im.height = H ∧ im.WF := by
    intro im him
    rcases List.mem_cons.mp him with h | h
    · subst h
      exact ⟨rfl, rfl, whiteImage_wf W H⟩
    · exact hops im h
  rw [foldl_commit ops (whiteImage W H) [whiteImage W H]]
  simp only [List.singleton_append]
  have hlast : (whiteImage W H :: ops).getLast? =
      some (ops.getLast?.getD (whiteImage W H)) := by
    cases ops with
    | nil => rfl
    | cons a t =>
      rw [List.getLast?_cons_cons,
        List.getLast?_eq_getLast (a :: t) (List.cons_ne_nil a t)]
      rfl
  have hu := undo_iter (W := W) (H := H) ops (whiteImage W H) []
    (ops.getLast?.getD (whiteImage W H)) hlast hdims
  rw [hu]
  simp only [List.append_nil]
  have hr := redo_iter (W := W) (H := H) ops [whiteImage W H]
    (whiteImage W H) rfl (by
      intro im him
      simp only [List.singleton_append] at him
      exact hdims im him)
  rw [hr]
  simp only [List.singleton_append]
  have : (whiteImage W H :: ops).getLast?.getD emptyImage =
      ops.getLast?.getD (whiteImage W H) := by
    rw [hlast]
    rfl
  rw [this]

theorem undo_redo_inverse_witness :
    Nat.iterate handleRedo 2 (Nat.iterate handleUndo 2
      ([⟨1, 1, #[255, 0, 0, 255]⟩, ⟨1, 1, #[0, 255, 0, 255]⟩].foldl commitOp
        ⟨whiteImage 1 1, [whiteImage 1 1], []⟩)) =
      [⟨1, 1, #[255, 0, 0, 255]⟩, ⟨1, 1, #[0, 255, 0, 255]⟩].foldl commitOp
        ⟨whiteImage 1 1, [whiteImage 1 1], []⟩ :=
  undo_redo_inverse 1 1
    [⟨1, 1, #[255, 0, 0, 255]⟩, ⟨1, 1, #[0, 255, 0, 255]⟩] (by decide)

/-- C3 counterexample: resizing a 1×1 canvas (history holding its 1×1 black
snapshot) to 2×1 repaints the buffer at the new size but leaves the old-size
snapshot as the most recent history entry, so `history.last` is not
pixel-identical to the buffer after this completed operation. -/
theorem history_last_counterexample :
    ¬ HistInv (setupCanvas 2 1 1 ⟨⟨1, 1, #[0, 0, 0, 255]⟩,
      [⟨1, 1, #[0, 0, 0, 255]⟩], []⟩) := by decide

/-- C3 (amended): the invariant `history.last = current buffer` is
established by every operation that commits through `saveState` (stroke and
shape commits, flood fill) and is preserved by undo and redo whenever the
recorded snapshots match the buffer dimensions, by a clear whose physical
size is unchanged, and by the initial resize with empty history; it is NOT
preserved by resize reconciliation with non-empty history (the buffer is
repainted at the new size while the old-size snapshot stays the most recent
history entry). -/
theorem history_last_invariant (s : EngineState) :
    HistInv (saveState s) ∧
    (∀ im : ImageData, HistInv (commitOp s im)) ∧
    (∀ sx sy : Int, ∀ fr fg fb : Nat,
      HistInv s → HistInv (floodFill sx sy fr fg fb s)) ∧
    (DimsOK s → HistInv s → HistInv (handleUndo s)) ∧
    (DimsOK s → HistInv s → HistInv (handleRedo s)) ∧
    (∀ rectW rectH dpr : Nat, s.canvas.width = rectW * dpr →
      s.canvas.height = rectH * dpr → HistInv s →
      HistInv (handleClear rectW rectH dpr s)) ∧
    (∀ rectW rectH dpr : Nat, s.history = [] →
      (s.canvas.width ≠ rectW * dpr ∨ s.canvas.height ≠ rectH * dpr) →
      HistInv (setupCanvas rectW rectH dpr s)) := by
  refine ⟨?_, ?_, ?_, ?_, ?_, ?_, ?_⟩
  · unfold HistInv saveState
    dsimp only
    rw [List.getLast?_concat]
  · intro im
    unfold HistInv commitOp saveState
    dsimp only
    rw [List.getLast?_concat]
  · intro sx sy fr fg fb hinv
    unfold floodFill floodFillFuel
    dsimp only
    split
    · exact hinv
    · split
      · exact hinv
      · unfold HistInv
        dsimp only
        rw [List.getLast?_concat]
  · intro hdims hinv
    unfold handleUndo
    split
    · exact hinv
    · next hlen =>
      unfold HistInv
      dsimp only
      have hne : s.history.dropLast ≠ [] := by
        intro h
        have := congrArg List.length h
        rw [List.length_dropLast] at this
        simp at this
        omega
      have hp := List.getLast?_eq_getLast s.history.dropLast hne
      rw [hp]
      have hmem : s.history.dropLast.getLast hne ∈ s.history :=
        (List.dropLast_sublist s.history).subset (List.getLast_mem hne)
      have hd := hdims _ (List.mem_append.mpr (Or.inl hmem))
      have hself : putImageData s.canvas (s.history.dropLast.getLast hne) =
          s.history.dropLast.getLast hne :=
        putImageData_self hd.1 hd.2.1 hd.2.2
      rw [show (some (s.history.dropLast.getLast hne)).getD emptyImage =
        s.history.dropLast.getLast hne from rfl, hself]
  · intro hdims hinv
    unfold handleRedo
    split
    · exact hinv
    · next nextState rest heq =>
      unfold HistInv
      dsimp only
      rw [List.getLast?_concat]
      have hd := hdims nextState
        (List.mem_append.mpr (Or.inr (by rw [heq]; simp)))
      rw [putImageData_self hd.1 hd.2.1 hd.2.2]
  · intro rectW rectH dpr hw hh hinv
    unfold handleClear setupCanvas
    rw [if_neg (by omega)]
    exact hinv
  · intro rectW rectH dpr hemp hneq
    unfold HistInv setupCanvas
    rw [if_pos hneq, hemp]
    simp

theorem history_last_invariant_witness :
    HistInv (handleUndo ⟨whiteImage 1 1,
      [whiteImage 1 1, whiteImage 1 1], []⟩) :=
  (history_last_invariant ⟨whiteImage 1 1,
    [whiteImage 1 1, whiteImage 1 1], []⟩).2.2.2.1 (by decide) (by decide)

/-- C1 (evaluation at the failing input): with the physical pixel size
unchanged (2×2 canvas, CSS size 2×2, device pixel ratio 1), `handleClear` is
a complete no-op — it leaves the drawn (non-blank) buffer and the two-entry
history exactly as they were, instead of resetting them to a single blank
snapshot. -/
theorem clear_noop_eval :
    handleClear 2 2 1
        ⟨⟨2, 2, #[0, 0, 0, 255, 255, 255, 255, 255,
                  255, 255, 255, 255, 255, 255, 255, 255]⟩,
         [whiteImage 2 2,
          ⟨2, 2, #[0, 0, 0, 255, 255, 255, 255, 255,
                   255, 255, 255, 255, 255, 255, 255, 255]⟩], []⟩ =
      ⟨⟨2, 2, #[0, 0, 0, 255, 255, 255, 255, 255,
                255, 255, 255, 255, 255, 255, 255, 255]⟩,
       [whiteImage 2 2,
        ⟨2, 2, #[0, 0, 0, 255, 255, 255, 255, 255,
                 255, 255, 255, 255, 255, 255, 255, 255]⟩], []⟩ ∧
    (⟨2, 2, #[0, 0, 0, 255, 255, 255, 255, 255,
              255, 255, 255, 255, 255, 255, 255, 255]⟩ : ImageData) ≠
      whiteImage 2 2 := by
  constructor
  · rfl
  · decide

theorem getPixel_whiteImage {w h x y : Nat} (hx : x < w) (hy : y < h) :
    getPixel (whiteImage w h) x y = (255, 255, 255, 255) := by
  unfold getPixel whiteImage
  dsimp only
  have h1 : y * w + x < w * h := pixIndex_lt hx hy
  have e := Nat.mul_assoc 4 w h
  have hlt : ∀ ch : Nat, ch < 4 → (y * w + x) * 4 + ch < 4 * w * h := by
    intro ch hch
    set m := y * w + x
    set k := w * h
    omega
  have hval : ∀ ch : Nat, ch < 4 →
      (Array.mkArray (4 * w * h) 255).getD ((y * w + x) * 4 + ch) 0 = 255 := by
    intro ch hch
    have hsz : (y * w + x) * 4 + ch < (Array.mkArray (4 * w * h) 255).size := by
      simpa using hlt ch hch
    rw [getD_lt hsz]
    exact Array.getElem_mkArray _ _ _
  have e0 := hval 0 (by omega)
  have e1 := hval 1 (by omega)
  have e2 := hval 2 (by omega)
  have e3 := hval 3 (by omega)
  simp only [Nat.add_zero] at e0
  rw [e0, e1, e2, e3]

/-- C8: with non-empty history whose most recent snapshot matches the buffer
dimensions, a resize to strictly larger pixel dimensions produces a buffer of
the new size whose overlapping region (anchored at the top-left) is
pixel-identical to that snapshot and whose newly exposed pixels are opaque
white; a resize event whose required pixel dimensions equal the current
buffer dimensions changes nothing at all. -/
theorem resize_preserves_content (s : EngineState) (rectW rectH dpr : Nat)
    (hl : ImageData) (hlast : s.history.getLast? = some hl) (hwf : hl.WF)
    (hw : hl.width = s.canvas.width) (hh : hl.height = s.canvas.height) :
    (s.canvas.width < rectW * dpr → s.canvas.height < rectH * dpr →
      (setupCanvas rectW rectH dpr s).canvas.width = rectW * dpr ∧
      (setupCanvas rectW rectH dpr s).canvas.height = rectH * dpr ∧
      (∀ x y : Nat, x < hl.width → y < hl.height →
        getPixel (setupCanvas rectW rectH dpr s).canvas x y =
          getPixel hl x y) ∧
      (∀ x y : Nat, x < rectW * dpr → y < rectH * dpr →
        hl.width ≤ x ∨ hl.height ≤ y →
        getPixel (setupCanvas rectW rectH dpr s).canvas x y =
          (255, 255, 255, 255))) ∧
    (s.canvas.width = rectW * dpr → s.canvas.height = rectH * dpr →
      setupCanvas rectW rectH dpr s = s) := by
  constructor
  · intro hW hH
    have hcond : s.canvas.width ≠ rectW * dpr ∨
        s.canvas.height ≠ rectH * dpr := Or.inl (by omega)
    have hlen : s.history.length > 0 := by
      cases hhist : s.history with
      | nil =>
        rw [hhist] at hlast
        simp at hlast
      | cons a t => simp
    have hsetup : setupCanvas rectW rectH dpr s =
        { s with canvas :=
            putImageData (whiteImage (rectW * dpr) (rectH * dpr)) hl } := by
      unfold setupCanvas
      rw [if_pos hcond]
      dsimp only
      rw [if_pos hlen, hlast]
      rfl
    rw [hsetup]
    dsimp only
    refine ⟨rfl, rfl, ?_, ?_⟩
    · intro x y hx hy
      have hx2 : x < (whiteImage (rectW * dpr) (rectH * dpr)).width := by
        show x < rectW * dpr
        omega
      have hy2 : y < (whiteImage (rectW * dpr) (rectH * dpr)).height := by
        show y < rectH * dpr
        omega
      rw [putImageData_pixel _ _ hx2 hy2, if_pos ⟨hx, hy⟩]
    · intro x y hx hy hout
      have hx2 : x < (whiteImage (rectW * dpr) (rectH * dpr)).width := hx
      have hy2 : y < (whiteImage (rectW * dpr) (rectH * dpr)).height := hy
      rw [putImageData_pixel _ _ hx2 hy2, if_neg (by omega)]
      exact getPixel_whiteImage hx hy
  · intro hweq hheq
    unfold setupCanvas
    rw [if_neg (by omega)]

theorem resize_preserves_content_witness :
    getPixel (setupCanvas 2 2 1 ⟨⟨1, 1, #[0, 0, 0, 255]⟩,
      [⟨1, 1, #[0, 0, 0, 255]⟩], []⟩).canvas 0 0 = (0, 0, 0, 255) ∧
    getPixel (setupCanvas 2 2 1 ⟨⟨1, 1, #[0, 0, 0, 255]⟩,
      [⟨1, 1, #[0, 0, 0, 255]⟩], []⟩).canvas 1 1 = (255, 255, 255, 255) ∧
    setupCanvas 1 1 1 ⟨⟨1, 1, #[0, 0, 0, 255]⟩,
      [⟨1, 1, #[0, 0, 0, 255]⟩], []⟩ =
      ⟨⟨1, 1, #[0, 0, 0, 255]⟩, [⟨1, 1, #[0, 0, 0, 255]⟩], []⟩ := by
  obtain ⟨hgrow, _⟩ := resize_preserves_content
    ⟨⟨1, 1, #[0, 0, 0, 255]⟩, [⟨1, 1, #[0, 0, 0, 255]⟩], []⟩ 2 2 1
    ⟨1, 1, #[0, 0, 0, 255]⟩ rfl (by decide) rfl rfl
  obtain ⟨h1, h2, h3, h4⟩ := hgrow (by decide) (by decide)
  refine ⟨?_, ?_, ?_⟩
  · rw [h3 0 0 (by decide) (by decide)]
    decide
  · exact h4 1 1 (by decide) (by decide) (Or.inl (by decide))
  · exact (resize_preserves_content
      ⟨⟨1, 1, #[0, 0, 0, 255]⟩, [⟨1, 1, #[0, 0, 0, 255]⟩], []⟩ 1 1 1
      ⟨1, 1, #[0, 0, 0, 255]⟩ rfl (by decide) rfl rfl).2 rfl rfl

/-- C2 counterexample: the out-of-bounds seed (-1, 0) on a white 2×2 canvas
with fill color red is not a no-op: the whole buffer is repainted red, a
snapshot is appended to the history, and the redo stack is cleared. -/
theorem fill_oob_seed_counterexample :
    floodFill (-1) 0 255 0 0
        ⟨whiteImage 2 2, [whiteImage 2 2], [whiteImage 2 2]⟩ ≠
      ⟨whiteImage 2 2, [whiteImage 2 2], [whiteImage 2 2]⟩ ∧
    floodFill (-1) 0 255 0 0
        ⟨whiteImage 2 2, [whiteImage 2 2], [whiteImage 2 2]⟩ =
      ⟨⟨2, 2, #[255, 0, 0, 255, 255, 0, 0, 255,
                255, 0, 0, 255, 255, 0, 0, 255]⟩,
       [whiteImage 2 2,
        ⟨2, 2, #[255, 0, 0, 255, 255, 0, 0, 255,
                 255, 0, 0, 255, 255, 0, 0, 255]⟩],
       []⟩ := by
  constructor
  · decide
  · decide

/-- C2 (amended): `floodFill` performs no bounds check on its seed.  For an
out-of-bounds seed whose flat pixel index falls outside the data array, the
JavaScript reads return `undefined`, so neither pre-check can fire and the
fill always runs: it appends a snapshot to the history (growing it by one)
and clears the redo stack — and it may additionally repaint in-bounds pixels
4-adjacent to the seed (see the counterexample).  An out-of-bounds seed is
therefore NOT a complete no-op. -/
theorem fill_oob_seed_runs (s : EngineState) (sx sy : Int) (fr fg fb : Nat)
    (hoob : ¬ inB (s.canvas.width : Int) (s.canvas.height : Int) (sx, sy))
    (hflat : jsGet s.canvas.data ((sy * (s.canvas.width : Int) + sx) * 4)
      = none) :
    (floodFill sx sy fr fg fb s).history =
      s.history ++ [(floodFill sx sy fr fg fb s).canvas] ∧
    (floodFill sx sy fr fg fb s).redoHistory = [] ∧
    (floodFill sx sy fr fg fb s).history.length = s.history.length + 1 := by
  have h1 : ¬(chanAt (s.canvas.width : Int) s.canvas.data (sx, sy) 0
        = some fr ∧
      chanAt (s.canvas.width : Int) s.canvas.data (sx, sy) 1 = some fg ∧
      chanAt (s.canvas.width : Int) s.canvas.data (sx, sy) 2 = some fb) := by
    intro hcon
    have hc0 := hcon.1
    unfold chanAt flatPos at hc0
    dsimp only at hc0
    rw [add_zero, hflat] at hc0
    exact Option.noConfusion hc0
  have h2 : lineAt (s.canvas.width : Int) fr fg fb s.canvas.data (sx, sy)
      = false := by
    unfold lineAt isLine
    rw [show flatPos (s.canvas.width : Int) (sx, sy) =
      (sy * (s.canvas.width : Int) + sx) * 4 from rfl, hflat]
    simp [jsLe]
  unfold floodFill
  rw [floodFillFuel_commit h1 h2]
  refine ⟨rfl, rfl, by simp⟩

theorem fill_oob_seed_runs_witness :
    (floodFill (-1) (-1) 255 0 0
      ⟨whiteImage 1 1, [whiteImage 1 1], []⟩).history.length = 2 := by
  have h := fill_oob_seed_runs ⟨whiteImage 1 1, [whiteImage 1 1], []⟩
    (-1) (-1) 255 0 0 (by decide) (by decide)
  exact h.2.2

/-- C10: the flood-fill search terminates after at most
`width * height + 1` dequeue steps: the visited set lets every in-bounds
coordinate be enqueued at most once, so running the loop with any fuel of at
least `width * height + 1` gives exactly the result of `floodFill` (which
uses that bound), for every buffer, fill color and in-bounds seed. -/
theorem flood_fill_terminates (s : EngineState) (hwf : s.canvas.WF)
    (sx sy : Int) (fr fg fb : Nat)
    (hin : inB (s.canvas.width : Int) (s.canvas.height : Int) (sx, sy))
    (fuel : Nat) (hfuel : s.canvas.width * s.canvas.height + 1 ≤ fuel) :
    floodFillFuel fuel sx sy fr fg fb s = floodFill sx sy fr fg fb s := by
  unfold floodFill
  by_cases hc1 : (chanAt (s.canvas.width : Int) s.canvas.data (sx, sy) 0
        = some fr ∧
      chanAt (s.canvas.width : Int) s.canvas.data (sx, sy) 1 = some fg ∧
      chanAt (s.canvas.width : Int) s.canvas.data (sx, sy) 2 = some fb)
  · rw [floodFillFuel_noop (Or.inl hc1), floodFillFuel_noop (Or.inl hc1)]
  · by_cases hc2 : lineAt (s.canvas.width : Int) fr fg fb s.canvas.data
        (sx, sy) = true
    · rw [floodFillFuel_noop (Or.inr hc2), floodFillFuel_noop (Or.inr hc2)]
    · have hline : lineAt (s.canvas.width : Int) fr fg fb s.canvas.data
          (sx, sy) = false := Bool.eq_false_iff.mpr hc2
      rw [floodFillFuel_commit hc1 hline, floodFillFuel_commit hc1 hline]
      have hfn : ((s.canvas.width : Int)).toNat *
          ((s.canvas.height : Int)).toNat + 1 =
          s.canvas.width * s.canvas.height + 1 := by
        rw [Int.toNat_ofNat, Int.toNat_ofNat]
      have r1 := bfs_result (WF_size_int hwf) hin hline fuel
        (by rw [hfn]; exact hfuel)
      have r2 := bfs_result (WF_size_int hwf) hin hline
        (s.canvas.width * s.canvas.height + 1) (by rw [hfn])
      have heq := fillResult_unique (Int.ofNat_nonneg _) (Int.ofNat_nonneg _)
        (WF_size_int hwf) r1 r2
      rw [heq]

theorem flood_fill_terminates_witness :
    floodFillFuel 9 0 0 255 0 0 ⟨whiteImage 1 1, [whiteImage 1 1], []⟩ =
      floodFill 0 0 255 0 0 ⟨whiteImage 1 1, [whiteImage 1 1], []⟩ :=
  flood_fill_terminates ⟨whiteImage 1 1, [whiteImage 1 1], []⟩
    (whiteImage_wf 1 1) 0 0 255 0 0 (by decide) 9 (by decide)

/-- C4 counterexample: with fill color red (255,0,0), a pixel whose channels
are exactly (64, 64, 64) is classified as a line by the code's classifier
(every channel is at most the threshold), although by the claim's wording
(every channel strictly below 64, or exactly the fill color) it is not a
boundary — the claimed equivalence fails at this pixel. -/
theorem boundary_threshold_counterexample :
    lineAt (1 : Int) 255 0 0 #[64, 64, 64, 255] (0, 0) = true ∧
    ¬ boundarySpecBelow 64 64 64 255 0 0 ∧
    getPixel ⟨1, 1, #[64, 64, 64, 255]⟩ 0 0 = (64, 64, 64, 255) := by
  refine ⟨by decide, by decide, by decide⟩

/-- C4 (amended): during a flood fill with fill color (fr, fg, fb), an
in-bounds pixel is classified as a boundary (line) pixel iff each of its
red, green and blue channel values is AT MOST the darkness threshold 64
(`r ≤ 64 ∧ g ≤ 64 ∧ b ≤ 64`), or the pixel exactly equals the fill color;
non-boundary pixels are the fillable ones, and boundary pixels are never
painted: flood fill from any in-bounds seed leaves every boundary pixel
unchanged. -/
theorem boundary_classification (s : EngineState) (hwf : s.canvas.WF)
    (sx sy : Int) (fr fg fb : Nat)
    (hin : inB (s.canvas.width : Int) (s.canvas.height : Int) (sx, sy)) :
    ∀ x y : Nat, x < s.canvas.width → y < s.canvas.height →
      (lineAt (s.canvas.width : Int) fr fg fb s.canvas.data
          ((x : Int), (y : Int)) = true ↔
        boundarySpecAtMost (getPixel s.canvas x y).1
          (getPixel s.canvas x y).2.1 (getPixel s.canvas x y).2.2.1
          fr fg fb) ∧
      (lineAt (s.canvas.width : Int) fr fg fb s.canvas.data
          ((x : Int), (y : Int)) = true →
        getPixel (floodFill sx sy fr fg fb s).canvas x y =
          getPixel s.canvas x y) := by
  intro x y hx hy
  have hcomp := chanAt_getPixel_comp hwf hx hy
  have hcomp0 := hcomp.1
  have hcomp1 := hcomp.2.1
  have hcomp2 := hcomp.2.2.1
  have hcomp3 := hcomp.2.2.2
  unfold chanAt at hcomp0 hcomp1 hcomp2 hcomp3
  rw [add_zero] at hcomp0
  constructor
  · unfold lineAt isLine
    rw [hcomp0, hcomp1, hcomp2]
    unfold boundarySpecAtMost
    simp only [Bool.or_eq_true, Bool.and_eq_true, beq_iff_eq, jsLe,
      tolerance, Option.some.injEq, decide_eq_true_eq]
    tauto
  · intro hline
    by_cases hc1 : (chanAt (s.canvas.width : Int) s.canvas.data (sx, sy) 0
          = some fr ∧
        chanAt (s.canvas.width : Int) s.canvas.data (sx, sy) 1 = some fg ∧
        chanAt (s.canvas.width : Int) s.canvas.data (sx, sy) 2 = some fb)
    · rw [show floodFill sx sy fr fg fb s = s from
        floodFillFuel_noop (Or.inl hc1)]
    · by_cases hc2 : lineAt (s.canvas.width : Int) fr fg fb s.canvas.data
          (sx, sy) = true
      · rw [show floodFill sx sy fr fg fb s = s from
          floodFillFuel_noop (Or.inr hc2)]
      · have hlineSeed : lineAt (s.canvas.width : Int) fr fg fb
            s.canvas.data (sx, sy) = false := Bool.eq_false_iff.mpr hc2
        obtain ⟨hwidth, hheight, hhist, hredo, hfill⟩ :=
          floodFill_characterize hwf hin hlineSeed
        have hpin : inB (s.canvas.width : Int) (s.canvas.height : Int)
            ((x : Int), (y : Int)) := by
          refine ⟨by omega, by omega, by omega, by omega⟩
        have hnR : ¬ Reach (okPix (s.canvas.width : Int)
            (s.canvas.height : Int) fr fg fb s.canvas.data) (sx, sy)
            ((x : Int), (y : Int)) := by
          intro hR
          have hok := (hR.ok_of).2
          rw [hline] at hok
          exact Bool.noConfusion hok
        have hunch := (hfill.2 _ hpin).2 hnR
        have h0 := (hunch 0 (by omega) (by omega)).trans hcomp.1
        have h1 := (hunch 1 (by omega) (by omega)).trans hcomp.2.1
        have h2 := (hunch 2 (by omega) (by omega)).trans hcomp.2.2.1
        have h3 := (hunch 3 (by omega) (by omega)).trans hcomp.2.2.2
        have hwfnc : (floodFill sx sy fr fg fb s).canvas.WF := by
          unfold ImageData.WF
          rw [hwidth, hheight, hfill.1]
          exact hwf
        exact getPixel_from_chanAt hwfnc
          (by rw [hwidth]; exact hx) (by rw [hheight]; exact hy)
          (by rw [hwidth]; exact h0) (by rw [hwidth]; exact h1)
          (by rw [hwidth]; exact h2) (by rw [hwidth]; exact h3)

/-- C5: flood-fill containment.  Let S be a region of pixels that are all
in-bounds and non-boundary, containing the seed, 4-connected to the seed
within itself, and enclosed: every in-bounds neighbour of a pixel of S is
either in S or a boundary (dark or fill-colored) pixel.  Flood-filling from
the seed repaints exactly the pixels of S to the fill color at full opacity
and leaves every other pixel — in particular every boundary pixel and every
pixel outside the enclosed region — unchanged. -/
theorem flood_fill_containment (s : EngineState) (hwf : s.canvas.WF)
    (sx sy : Int) (fr fg fb : Nat) (S : Int × Int → Prop)
    (hseed : S (sx, sy))
    (hSok : ∀ p, S p →
      inB (s.canvas.width : Int) (s.canvas.height : Int) p ∧
      lineAt (s.canvas.width : Int) fr fg fb s.canvas.data p = false)
    (henc : ∀ p, S p → ∀ q ∈ neighbors p,
      inB (s.canvas.width : Int) (s.canvas.height : Int) q →
      S q ∨ lineAt (s.canvas.width : Int) fr fg fb s.canvas.data q = true)
    (hconn : ∀ p, S p → Reach S (sx, sy) p) :
    ∀ x y : Nat, x < s.canvas.width → y < s.canvas.height →
      (S ((x : Int), (y : Int)) →
        getPixel (floodFill sx sy fr fg fb s).canvas x y =
          (fr, fg, fb, 255)) ∧
      (¬ S ((x : Int), (y : Int)) →
        getPixel (floodFill sx sy fr fg fb s).canvas x y =
          getPixel s.canvas x y) := by
  have hseedok := hSok _ hseed
  obtain ⟨hwidth, hheight, hhist, hredo, hfill⟩ :=
    floodFill_characterize hwf hseedok.1 hseedok.2
  have hRS : ∀ p, Reach (okPix (s.canvas.width : Int)
      (s.canvas.height : Int) fr fg fb s.canvas.data) (sx, sy) p ↔ S p := by
    intro p
    constructor
    · intro hR
      induction hR with
      | refl _ => exact hseed
      | step _ hn hok ih =>
        rcases henc _ ih _ hn hok.1 with h | h
        · exact h
        · rw [hok.2] at h
          exact Bool.noConfusion h
    · intro hp
      exact Reach.mono (fun q hq => ⟨(hSok q hq).1, (hSok q hq).2⟩)
        (hconn p hp)
  intro x y hx hy
  have hpin : inB (s.canvas.width : Int) (s.canvas.height : Int)
      ((x : Int), (y : Int)) := ⟨by omega, by omega, by omega, by omega⟩
  have hwfnc : (floodFill sx sy fr fg fb s).canvas.WF := by
    unfold ImageData.WF
    rw [hwidth, hheight, hfill.1]
    exact hwf
  have hcomp := chanAt_getPixel_comp hwf hx hy
  constructor
  · intro hS
    have hR := (hRS _).mpr hS
    have hfillpix := (hfill.2 _ hpin).1 hR
    exact getPixel_from_chanAt hwfnc
      (by rw [hwidth]; exact hx) (by rw [hheight]; exact hy)
      (by rw [hwidth]; exact hfillpix.1)
      (by rw [hwidth]; exact hfillpix.2.1)
      (by rw [hwidth]; exact hfillpix.2.2.1)
      (by rw [hwidth]; exact hfillpix.2.2.2)
  · intro hnS
    have hnR : ¬ Reach (okPix (s.canvas.width : Int)
        (s.canvas.height : Int) fr fg fb s.canvas.data) (sx, sy)
        ((x : Int), (y : Int)) := fun hR => hnS ((hRS _).mp hR)
    have hunch := (hfill.2 _ hpin).2 hnR
    have h0 := (hunch 0 (by omega) (by omega)).trans hcomp.1
    have h1 := (hunch 1 (by omega) (by omega)).trans hcomp.2.1
    have h2 := (hunch 2 (by omega) (by omega)).trans hcomp.2.2.1
    have h3 := (hunch 3 (by omega) (by omega)).trans hcomp.2.2.2
    exact getPixel_from_chanAt hwfnc
      (by rw [hwidth]; exact hx) (by rw [hheight]; exact hy)
      (by rw [hwidth]; exact h0) (by rw [hwidth]; exact h1)
      (by rw [hwidth]; exact h2) (by rw [hwidth]; exact h3)

theorem boundary_classification_witness :
    getPixel (floodFill 0 0 255 0 0
        ⟨⟨1, 1, #[64, 64, 64, 255]⟩,
         [⟨1, 1, #[64, 64, 64, 255]⟩], []⟩).canvas 0 0 =
      getPixel (⟨1, 1, #[64, 64, 64, 255]⟩ : ImageData) 0 0 :=
  ((boundary_classification
      ⟨⟨1, 1, #[64, 64, 64, 255]⟩, [⟨1, 1, #[64, 64, 64, 255]⟩], []⟩
      (by decide) 0 0 255 0 0 (by decide) 0 0 (by decide) (by decide)).2)
    (by decide)

theorem flood_fill_containment_witness :
    getPixel (floodFill 1 1 255 0 0
        ⟨⟨3, 3, #[0, 0, 0, 255, 0, 0, 0, 255, 0, 0, 0, 255,
                  0, 0, 0, 255, 255, 255, 255, 255, 0, 0, 0, 255,
                  0, 0, 0, 255, 0, 0, 0, 255, 0, 0, 0, 255]⟩,
         [⟨3, 3, #[0, 0, 0, 255, 0, 0, 0, 255, 0, 0, 0, 255,
                   0, 0, 0, 255, 255, 255, 255, 255, 0, 0, 0, 255,
                   0, 0, 0, 255, 0, 0, 0, 255, 0, 0, 0, 255]⟩], []⟩).canvas
      1 1 = (255, 0, 0, 255) ∧
    getPixel (floodFill 1 1 255 0 0
        ⟨⟨3, 3, #[0, 0, 0, 255, 0, 0, 0, 255, 0, 0, 0, 255,
                  0, 0, 0, 255, 255, 255, 255, 255, 0, 0, 0, 255,
                  0, 0, 0, 255, 0, 0, 0, 255, 0, 0, 0, 255]⟩,
         [⟨3, 3, #[0, 0, 0, 255, 0, 0, 0, 255, 0, 0, 0, 255,
                   0, 0, 0, 255, 255, 255, 255, 255, 0, 0, 0, 255,
                   0, 0, 0, 255, 0, 0, 0, 255, 0, 0, 0, 255]⟩], []⟩).canvas
      0 0 = getPixel (⟨3, 3, #[0, 0, 0, 255, 0, 0, 0, 255, 0, 0, 0, 255,
                  0, 0, 0, 255, 255, 255, 255, 255, 0, 0, 0, 255,
                  0, 0, 0, 255, 0, 0, 0, 255, 0, 0, 0, 255]⟩ : ImageData)
      0 0 := by
  have h := flood_fill_containment
    ⟨⟨3, 3, #[0, 0, 0, 255, 0, 0, 0, 255, 0, 0, 0, 255,
              0, 0, 0, 255, 255, 255, 255, 255, 0, 0, 0, 255,
              0, 0, 0, 255, 0, 0, 0, 255, 0, 0, 0, 255]⟩,
     [⟨3, 3, #[0, 0, 0, 255, 0, 0, 0, 255, 0, 0, 0, 255,
               0, 0, 0, 255, 255, 255, 255, 255, 0, 0, 0, 255,
               0, 0, 0, 255, 0, 0, 0, 255, 0, 0, 0, 255]⟩], []⟩
    (by decide) 1 1 255 0 0 (fun p => p = ((1 : Int), (1 : Int)))
    rfl
    (by
      intro p hp
      subst hp
      exact ⟨by decide, by decide⟩)
    (by
      intro p hp q hq hqin
      subst hp
      simp [neighbors] at hq
      rcases hq with h | h | h | h <;> subst h <;> right <;> decide)
    (by
      intro p hp
      subst hp
      exact Reach.refl rfl)
  constructor
  · exact (h 1 1 (by decide) (by decide)).1 rfl
  · exact (h 0 0 (by decide) (by decide)).2 (by decide)
